import Mathlib

/-!
Verification development for the historical price resolution engine of the
crypto-portfolio-tracker repository (`src/gui.py`).

The engine is embedded shallowly:
* calendar days are integers (days since the Unix epoch),
* prices are rationals,
* raw upstream points are `(millisecond timestamp, price)` pairs,
* the local filesystem cache is a map `(coin id, window) → entry`,
* the upstream HTTP API is an oracle supplied in an `Env` record, one field per
  endpoint shape used by the fetch cascade,
* the machine's local timezone (Python's `date.fromtimestamp` uses local time)
  is a fixed offset `tz` in seconds east of UTC, carried in `Env`.

Effects are made observable: the embedded cascade returns, next to the series
and the failure reason, the number of cache reads, the list of cache writes and
the number of upstream request batches issued.
-/

/-- A raw upstream point: `(timestamp in milliseconds, price)`. -/
abbrev RawPoint : Type := Int × ℚ

/-- A resolved point: `(calendar day number, price)`. -/
abbrev PricePoint : Type := Int × ℚ

/-- A daily price series. -/
abbrev Series : Type := List PricePoint

/-- `STABLES = {"USDT", "USDC", "DAI", "FRAX", "TUSD", "USDD"}` from `src/gui.py`. -/
def STABLES : List String := ["USDT", "USDC", "DAI", "FRAX", "TUSD", "USDD"]

/-- `CACHE_TTL_SECONDS = 6 * 3600` from `src/gui.py`. -/
def CACHE_TTL_SECONDS : Int := 6 * 3600

/-- The `CG_IDS` symbol-to-coin-id table from `src/gui.py`, as an association list. -/
def CG_IDS : List (String × String) := [
  ("BTC", "bitcoin"), ("ETH", "ethereum"), ("SOL", "solana"),
  ("BNB", "binancecoin"), ("XRP", "ripple"), ("ADA", "cardano"),
  ("DOGE", "dogecoin"), ("TRX", "tron"), ("DOT", "polkadot"),
  ("LTC", "litecoin"), ("ATOM", "cosmos"), ("NEAR", "near"),
  ("AVAX", "avalanche-2"), ("TON", "toncoin"), ("MATIC", "matic-network"),
  ("POL", "pol-ex-matic"), ("ETC", "ethereum-classic"), ("ICP", "internet-computer"),
  ("ALGO", "algorand"), ("EGLD", "multiversx"), ("KAS", "kaspa"),
  ("SEI", "sei-network"), ("TIA", "celestia"), ("STX", "stacks"),
  ("RON", "ronin"), ("AR", "arweave"), ("OP", "optimism"),
  ("ARB", "arbitrum"), ("APT", "aptos"), ("SUI", "sui"),
  ("KAVA", "kava"), ("FTM", "fantom"), ("HBAR", "hedera-hashgraph"),
  ("USDT", "tether"), ("USDC", "usd-coin"), ("DAI", "dai"),
  ("FRAX", "frax"), ("TUSD", "true-usd"), ("USDD", "usdd"),
  ("WBTC", "wrapped-bitcoin"), ("WETH", "weth"), ("RPL", "rocket-pool"),
  ("LDO", "lido-dao"), ("AAVE", "aave"), ("UNI", "uniswap"),
  ("SNX", "synthetix-network-token"), ("COMP", "compound-governance-token"), ("GMX", "gmx"),
  ("DYDX", "dydx"), ("PENDLE", "pendle"), ("AERO", "aerodrome-finance"),
  ("ONDO", "ondo"), ("ETHFI", "ether-fi"), ("W", "wormhole"),
  ("LINK", "chainlink"), ("PYTH", "pyth-network"), ("RNDR", "render"),
  ("GRT", "the-graph"), ("FIL", "filecoin"), ("STRK", "starknet"),
  ("ZK", "zksync"), ("JUP", "jupiter"), ("JTO", "jito"),
  ("RAY", "raydium"), ("BONK", "bonk"), ("WIF", "dogwifhat"),
  ("PEPE", "pepe"), ("SHIB", "shiba-inu"), ("FLOKI", "floki"),
  ("INJ", "injective"), ("MKR", "maker"), ("RUNE", "thorchain"),
  ("LRC", "loopring"), ("AXS", "axie-infinity"), ("SAND", "the-sandbox"),
  ("MANA", "decentraland"), ("IMX", "immutable"), ("TWT", "trust-wallet-token"),
  ("JASMY", "jasmycoin"), ("JOE", "joe"), ("WLD", "worldcoin"),
  ("ORDI", "ordi"), ("BCH", "bitcoin-cash"), ("XLM", "stellar"),
  ("XMR", "monero"), ("DASH", "dash"), ("ZEC", "zcash"),
  ("VET", "vechain"), ("VRA", "verasity")]

/-- `dt.date.fromtimestamp(ts_ms / 1000.0)` as a day number, for a machine whose
local timezone is the fixed offset `tz` seconds east of UTC: floor division of
the shifted millisecond timestamp by one day. -/
def localDayOfMs (tz : Int) (tsMs : Int) : Int := Int.fdiv (tsMs + tz * 1000) 86400000

/-- UTC-based truncation of a millisecond timestamp to a day number (what the
spec prescribes for `dedupe_by_day`). -/
def utcDayOfMs (tsMs : Int) : Int := Int.fdiv tsMs 86400000

/-- `_ms(d)`: midnight UTC of day `d` in milliseconds. -/
def ms (d : Int) : Int := d * 86400000

/-- Python `dict` insert-or-update, preserving insertion order of keys
(models `per[d] = float(price)` in `_dedupe_by_day`). -/
def dictInsert (k : Int) (v : ℚ) : List (Int × ℚ) → List (Int × ℚ)
  | [] => [(k, v)]
  | (k', v') :: t => if k' = k then (k, v) :: t else (k', v') :: dictInsert k v t

/-- The sort key of `_dedupe_by_day`'s final `sorted(..., key=lambda x: x[0])`. -/
def leDay (a b : PricePoint) : Prop := a.1 ≤ b.1

instance : DecidableRel leDay := fun a b => inferInstanceAs (Decidable (a.1 ≤ b.1))

instance : IsTotal PricePoint leDay := ⟨fun a b => Int.le_total a.1 b.1⟩

instance : IsTrans PricePoint leDay := ⟨fun _ _ _ h h' => le_trans h h'⟩

instance : IsRefl PricePoint leDay := ⟨fun a => le_refl a.1⟩

/-- `_dedupe_by_day` from `src/gui.py`: fold the raw points into a day-keyed
dict (last write per day wins), then sort the items by day. `tz` is the local
timezone offset used by `dt.date.fromtimestamp`. -/
def dedupe_by_day (tz : Int) (raw : List RawPoint) : Series :=
  List.insertionSort leDay
    (raw.foldl (fun per p => dictInsert (localDayOfMs tz p.1) p.2 per) [])

/-- `_slice_last_days` from `src/gui.py`: empty in, empty out; otherwise keep
the entries at or after `series[-1].date - (days - 1)`. -/
def slice_last_days (series : Series) (days : Int) : Series :=
  match series.getLast? with
  | none => []
  | some p => series.filter (fun q => decide (p.1 - (days - 1) ≤ q.1))

/-- Python's `l[-n:]` for `n ≥ 0`: the whole list when `n = 0` (since `l[-0:]`
is `l[0:]`), otherwise the trailing `n` elements. -/
def pyLastN (l : List α) (n : Nat) : List α := if n = 0 then l else l.drop (l.length - n)

/-- Python's `x or default` for an optional string `x` (an absent or empty
string falls back to the default). -/
def pyOr : Option String → String → String
  | some r, d => if r = "" then d else r
  | none, d => d

/-- Python's `str.upper`, character by character (kernel-computable). -/
def pyUpper (s : String) : String := ⟨s.data.map Char.toUpper⟩

/-- Python's `str.lower`, character by character (kernel-computable). -/
def pyLower (s : String) : String := ⟨s.data.map Char.toLower⟩

/-- Python truthiness of an optional list: `None` and `[]` are falsy. -/
def usable : Option (List α) → Option (List α)
  | none => none
  | some l => if l.isEmpty then none else some l

/-- One cached file: the `prices` payload and its mtime/`cached_at`. -/
structure CacheEntry where
  prices : List RawPoint
  writtenAt : Int

/-- The cache directory: a map from `(coin id, window length)` to an entry. -/
abbrev CacheMap : Type := String → Nat → Option CacheEntry

/-- `_cache_get` from `src/gui.py`: miss when absent or when the entry's age
exceeds `CACHE_TTL_SECONDS`. -/
def cache_get (m : CacheMap) (now : Int) (cid : String) (days : Nat) :
    Option (List RawPoint) :=
  match m cid days with
  | none => none
  | some e => if CACHE_TTL_SECONDS < now - e.writtenAt then none else some e.prices

/-- `_cache_get_raw` from `src/gui.py`: same lookup, ignoring the TTL. -/
def cache_get_raw (m : CacheMap) (cid : String) (days : Nat) : Option (List RawPoint) :=
  (m cid days).map CacheEntry.prices

/-- `_cache_set` from `src/gui.py`: overwrite the entry for the key, recording
the write time. -/
def cache_set (m : CacheMap) (cid : String) (days : Nat) (payload : List RawPoint)
    (now : Int) : CacheMap :=
  fun c d => if c = cid ∧ d = days then some ⟨payload, now⟩ else m c d

/-- One attempt as seen by `_req`: an HTTP response (status and parsed JSON
body) or a transport-level exception with its message. -/
inductive HttpAttempt (α : Type) where
  | resp (status : Nat) (body : α)
  | exn (msg : String)
deriving DecidableEq

/-- Result of `_req`: the JSON body or the raised error, together with the
number of HTTP attempts consumed. -/
inductive ReqResult (α : Type) where
  | ok (v : α) (attempts : Nat)
  | raised (msg : String) (attempts : Nat)
deriving DecidableEq

/-- The message of the `requests.HTTPError` raised by `raise_for_status` for an
error status (the exact text of the library is abstracted to the status code). -/
def httpErrMsg (status : Nat) : String := toString status ++ " Error"

/-- The retry loop of `_req` from `src/gui.py`: `i` attempts have been made,
the middle argument is the number of attempts left, and `last` is the last
exception caught so far.  429/418 and 5xx sleep and retry; `raise_for_status`
errors (other 4xx/5xx statuses) are `requests.RequestException`s and are
therefore caught by the transport-failure handler, recorded and retried; other
statuses return the body.  After the budget, the last error (or a generic
`RuntimeError`) is raised. -/
def reqLoop (outcomes : Nat → HttpAttempt α) : Nat → Nat → Option String → ReqResult α
  | i, 0, last =>
    match last with
    | some m => .raised m i
    | none => .raised "Unknown HTTP error" i
  | i, rem + 1, last =>
    match outcomes i with
    | .resp s b =>
      if s = 429 ∨ s = 418 then reqLoop outcomes (i + 1) rem last
      else if 500 ≤ s ∧ s < 600 then reqLoop outcomes (i + 1) rem last
      else if 400 ≤ s ∧ s < 600 then reqLoop outcomes (i + 1) rem (some (httpErrMsg s))
      else .ok b (i + 1)
    | .exn m => reqLoop outcomes (i + 1) rem (some m)

/-- `_req` from `src/gui.py` run against a schedule of attempt outcomes. -/
def req (outcomes : Nat → HttpAttempt α) (tries : Nat) : ReqResult α :=
  reqLoop outcomes 0 tries none

/-- The engine's environment: local timezone offset, today's date, the clock,
the cache directory, and one oracle per upstream endpoint shape used by the
cascade.  Each oracle yields either the extracted `prices` payload of the JSON
response (`.ok`) or the message of the exception `_req` raised (`.error`). -/
structure Env where
  tz : Int
  today : Int
  now : Int
  cache : CacheMap
  daily : String → Nat → Except String (List RawPoint)
  std : String → Nat → Except String (List RawPoint)
  maxChart : String → Except String (List RawPoint)
  ohlc : String → Nat → Except String (List (Int × ℚ × ℚ × ℚ × ℚ))
  range : String → Nat → Except String (List RawPoint)

/-- Observable outcome of one call to `fetch_daily_prices_with_reason`: the
returned pair plus the effects performed (cache reads, cache writes in order,
upstream request batches issued). -/
structure FetchOut where
  series : Series
  reason : Option String
  cacheReads : Nat
  writes : List (String × Nat × List RawPoint)
  netCalls : Nat
deriving DecidableEq

/-- Re-encode a day series as a raw payload, as the cascade does before
`_cache_set`: `[[_ms(d), v] for d, v in series]`. -/
def payloadOf (s : Series) : List RawPoint := s.map (fun p => (ms p.1, p.2))

/-- The trim `series[-days:] if len(series) > days else series` used by the
market-chart strategies. -/
def chartSlice (s : Series) (days : Nat) : Series :=
  if days < s.length then pyLastN s days else s

/-- `next((d for d in (365, 180, 90, 30, 14, 7) if d <= days), 7)` from the
OHLC strategy. -/
def ohlcPeriod (days : Nat) : Nat :=
  if 365 ≤ days then 365 else if 180 ≤ days then 180 else if 90 ≤ days then 90
  else if 30 ≤ days then 30 else if 14 ≤ days then 14 else 7

/-- Number of 30-day windows `_fetch_range_segmented` iterates over for a
`days`-long interval. -/
def rangeWindows (days : Nat) : Nat := (days + 29) / 30

/-- The cascade's final `return [], (reason or "no data")`. -/
def finalOut (reads calls : Nat) (reason : Option String) : FetchOut :=
  ⟨[], some (pyOr reason "no data"), reads, [], calls⟩

/-- Strategy 5 of the cascade: segmented 30-day range requests, then
dedupe/slice/cache. -/
def stage_range (env : Env) (cgId : String) (days : Nat) (reads calls : Nat)
    (reason : Option String) : FetchOut :=
  match env.range cgId days with
  | .ok seg =>
    if seg.isEmpty then finalOut reads (calls + rangeWindows days) reason
    else
      let series := slice_last_days (dedupe_by_day env.tz seg) (days : Int)
      ⟨series, none, reads, [(cgId, days, payloadOf series)], calls + rangeWindows days⟩
  | .error m =>
    finalOut reads (calls + rangeWindows days) (some (pyOr reason "" ++ "; range: " ++ m))

/-- Strategy 4 of the cascade: OHLC candles for the nearest allowed period,
close price per candle, then dedupe/slice/cache. -/
def stage_ohlc (env : Env) (cgId : String) (days : Nat) (reads calls : Nat)
    (reason : Option String) : FetchOut :=
  match env.ohlc cgId (ohlcPeriod days) with
  | .ok rows =>
    if rows.isEmpty then stage_range env cgId days reads (calls + 1) reason
    else
      let prices := rows.map (fun r => ((r.1, r.2.2.2.2) : RawPoint))
      let series := slice_last_days (dedupe_by_day env.tz prices) (days : Int)
      ⟨series, none, reads, [(cgId, days, payloadOf series)], calls + 1⟩
  | .error m =>
    stage_range env cgId days reads (calls + 1) (some (pyOr reason "" ++ "; ohlc: " ++ m))

/-- Strategy 3 of the cascade: `days=max` market chart, then slice to the
trailing `days` points. -/
def stage_max (env : Env) (cgId : String) (days : Nat) (reads calls : Nat)
    (reason : Option String) : FetchOut :=
  match env.maxChart cgId with
  | .ok arr =>
    if arr.isEmpty then stage_ohlc env cgId days reads (calls + 1) reason
    else
      let series := chartSlice (dedupe_by_day env.tz arr) days
      ⟨series, none, reads, [(cgId, days, payloadOf series)], calls + 1⟩
  | .error m =>
    stage_ohlc env cgId days reads (calls + 1) (some (pyOr reason "" ++ "; max: " ++ m))

/-- Strategy 2 of the cascade: the standard market chart (no forced daily
interval). -/
def stage_std (env : Env) (cgId : String) (days : Nat) (reads calls : Nat)
    (reason : Option String) : FetchOut :=
  match env.std cgId days with
  | .ok arr =>
    if arr.isEmpty then stage_max env cgId days reads (calls + 1) reason
    else
      let series := chartSlice (dedupe_by_day env.tz arr) days
      ⟨series, none, reads, [(cgId, days, payloadOf series)], calls + 1⟩
  | .error m =>
    stage_max env cgId days reads (calls + 1) (some (pyOr reason "" ++ "; standard: " ++ m))

/-- Strategy 1 of the cascade: the market chart with `interval=daily`.  Before
it runs, no failure reason has been recorded yet. -/
def stage_daily (env : Env) (cgId : String) (days : Nat) (reads calls : Nat) : FetchOut :=
  match env.daily cgId days with
  | .ok arr =>
    if arr.isEmpty then stage_std env cgId days reads (calls + 1) none
    else
      let series := chartSlice (dedupe_by_day env.tz arr) days
      ⟨series, none, reads, [(cgId, days, payloadOf series)], calls + 1⟩
  | .error m => stage_std env cgId days reads (calls + 1) (some ("daily: " ++ m))

/-- One step of the parent-window cache fallback: for a candidate `parent`
window already known to satisfy `parent > days`, a usable hit is a truthy
TTL-fresh `_cache_get` whose deduped series has at least `days` points; the
returned slice is `series_parent[-days:]`. -/
def parentUsable (env : Env) (cgId : String) (days parent : Nat) : Option Series :=
  match usable (cache_get env.cache env.now cgId parent) with
  | none => none
  | some c =>
    let sp := dedupe_by_day env.tz c
    if days ≤ sp.length then some (pyLastN sp days) else none

/-- The `for parent in (365, 180, 90)` loop of the cascade, returning the first
usable parent slice (if any) and the number of `_cache_get` reads performed. -/
def parentLoop (env : Env) (cgId : String) (days : Nat) : List Nat → Option Series × Nat
  | [] => (none, 0)
  | p :: rest =>
    if days < p then
      match parentUsable env cgId days p with
      | some s => (some s, 1)
      | none =>
        let r := parentLoop env cgId days rest
        (r.1, r.2 + 1)
    else parentLoop env cgId days rest

/-- The synthetic stable-coin series: `[(today - timedelta(days=i), 1.0) for i
in range(days-1, -1, -1)]`. -/
def stableSeries (today : Int) (days : Nat) : Series :=
  (List.range days).reverse.map (fun (i : Nat) => (today - (i : Int), (1 : ℚ)))

/-- `fetch_daily_prices_with_reason` from `src/gui.py`: stable shortcut, symbol
mapping, exact cache hit, parent-window slice, then the five-strategy network
cascade. -/
def fetch_daily_prices_with_reason (env : Env) (symbol : String) (days : Nat) : FetchOut :=
  let sym := pyUpper symbol
  if sym ∈ STABLES then ⟨stableSeries env.today days, none, 0, [], 0⟩
  else
    match CG_IDS.lookup sym with
    | none => ⟨[], some (sym ++ ": no mapping"), 0, [], 0⟩
    | some cgId =>
      match usable (cache_get env.cache env.now cgId days) with
      | some c => ⟨dedupe_by_day env.tz c, none, 1, [], 0⟩
      | none =>
        match parentLoop env cgId days [365, 180, 90] with
        | (some s, n) => ⟨s, none, 1 + n, [], 0⟩
        | (none, n) => stage_daily env cgId days (1 + n) 0

/-- Substring test on character lists (Python's `needle in hay`). -/
def containsSub (needle : List Char) : List Char → Bool
  | [] => needle.isEmpty
  | c :: t => needle.isPrefixOf (c :: t) || containsSub needle t

/-- Python's `needle in hay` on strings. -/
def strIn (needle hay : String) : Bool := containsSub needle.data hay.data

/-- The prewarm batch's rate-limit test on a fetch reason:
`reason and ("429" in str(reason) or "rate" in str(reason).lower())`. -/
def isRateLimitReason : Option String → Bool
  | none => false
  | some r => (!decide (r = "")) && (strIn "429" r || strIn "rate" (pyLower r))

/-- The notice `action_prewarm_cache_smart` appends when it aborts the batch. -/
def stopNotice : String := "Stopped early due to persistent rate limit."

/-- State of the prewarm loop: the `ok` and `skipped` report lists, the
consecutive-rate-limit counter, the symbols whose loop body ran, the evolving
cache, and effect counters; `stopped` records that the early-stop `break`
fired. -/
structure PrewarmState where
  ok : List String
  skipped : List String
  consec : Nat
  processed : List String
  cache : CacheMap
  netCalls : Nat
  writes : List (String × Nat × List RawPoint)
  stopped : Bool

/-- Apply a list of cache writes in order. -/
def applyWrites (m : CacheMap) (ws : List (String × Nat × List RawPoint)) (now : Int) :
    CacheMap :=
  ws.foldl (fun acc w => cache_set acc w.1 w.2.1 w.2.2 now) m

/-- The body of `action_prewarm_cache_smart`'s loop for one symbol: reuse a raw
(even stale) 365-day cache entry and derive 180/90 locally, otherwise run the
cascade for 365 days and, on success, store 365 and the derived 180/90 slices;
on failure record the skip and update the consecutive-rate-limit counter. -/
def prewarmStep (env : Env) (st : PrewarmState) (sym : String) : PrewarmState :=
  let cgId := (CG_IDS.lookup sym).getD ""
  match usable (cache_get_raw st.cache cgId 365) with
  | some raw365 =>
    let series365 := dedupe_by_day env.tz raw365
    let s180 := if 180 < series365.length then pyLastN series365 180 else series365
    let s090 := if 90 < series365.length then pyLastN series365 90 else series365
    let ws := [(cgId, 180, payloadOf s180), (cgId, 90, payloadOf s090)]
    { st with ok := st.ok ++ [sym ++ " (cache)"], consec := 0,
              processed := st.processed ++ [sym],
              cache := applyWrites st.cache ws env.now, writes := st.writes ++ ws }
  | none =>
    let r := fetch_daily_prices_with_reason { env with cache := st.cache } sym 365
    if r.series.isEmpty then
      let entry := sym ++ ": " ++ (match r.reason with | some s => s | none => "None")
      { st with skipped := st.skipped ++ [entry],
                consec := if isRateLimitReason r.reason then st.consec + 1 else 0,
                processed := st.processed ++ [sym],
                cache := applyWrites st.cache r.writes env.now,
                writes := st.writes ++ r.writes, netCalls := st.netCalls + r.netCalls }
    else
      let s180 := if 180 < r.series.length then pyLastN r.series 180 else r.series
      let s090 := if 90 < r.series.length then pyLastN r.series 90 else r.series
      let ws := [(cgId, 365, payloadOf r.series), (cgId, 180, payloadOf s180),
                 (cgId, 90, payloadOf s090)]
      { st with ok := st.ok ++ [sym], consec := 0,
                processed := st.processed ++ [sym],
                cache := applyWrites st.cache (r.writes ++ ws) env.now,
                writes := st.writes ++ r.writes ++ ws,
                netCalls := st.netCalls + r.netCalls }

/-- The prewarm loop over the remaining symbols: after each body run, append
the stop notice and `break` once five consecutive rate-limit failures have
accumulated.  A stopped state is final. -/
def prewarmGo (env : Env) : List String → PrewarmState → PrewarmState
  | [], st => st
  | sym :: rest, st =>
    if st.stopped then st
    else
      let st' := prewarmStep env st sym
      if 5 ≤ st'.consec then
        { st' with skipped := st'.skipped ++ [stopNotice], stopped := true }
      else prewarmGo env rest st'

/-- The initial state of a prewarm batch. -/
def initPrewarm (cache : CacheMap) : PrewarmState :=
  ⟨[], [], 0, [], cache, 0, [], false⟩

/-- `App.action_prewarm_cache_smart` from `src/gui.py`, run over a given symbol
batch. -/
def action_prewarm_cache_smart (env : Env) (syms : List String) : PrewarmState :=
  prewarmGo env syms (initPrewarm env.cache)

/-- C7: a `_cache_set` under a key followed by a `_cache_get` of the same key
while the entry's age is still below the 6-hour TTL returns the stored payload
unchanged. -/
theorem cache_set_get_roundtrip (m : CacheMap) (cid : String) (days : Nat)
    (payload : List RawPoint) (tw tr : Int) (h : tr - tw < CACHE_TTL_SECONDS) :
    cache_get (cache_set m cid days payload tw) tr cid days = some payload := by
  have hn : ¬ CACHE_TTL_SECONDS < tr - tw := lt_asymm h
  simp [cache_get, cache_set, hn]

/-- Witness for `cache_set_get_roundtrip` at a concrete key, payload and pair
of times. -/
theorem cache_set_get_roundtrip_witness :
    (100 : Int) - 0 < CACHE_TTL_SECONDS ∧
    cache_get (cache_set (fun _ _ => none) "bitcoin" 90 [((0 : Int), (1 : ℚ))] 0)
        100 "bitcoin" 90 = some [((0 : Int), (1 : ℚ))] :=
  ⟨by decide, cache_set_get_roundtrip _ _ _ _ _ _ (by decide)⟩

/-- A response whose HTTP status is an error other than 429, 418 or a 5xx —
the class the claim under review calls non-retryable. -/
def clientErrorAttempt : HttpAttempt α → Bool
  | .resp s _ => decide (400 ≤ s) && decide (s < 500) && !decide (s = 429) && !decide (s = 418)
  | .exn _ => false

/-- The HTTP status of an attempt outcome (0 for a transport error). -/
def attemptStatus : HttpAttempt α → Nat
  | .resp s _ => s
  | .exn _ => 0

/-- Attempt schedule: a 404 response on the first attempt, then 200 responses
with body `42`. -/
def afterNotFoundOk : Nat → HttpAttempt Nat
  | 0 => .resp 404 0
  | _ + 1 => .resp 200 42

/-- C4 counterexample: after a 404 on its first attempt, `_req` does not raise
immediately — the `raise_for_status` error is a `requests.RequestException`,
so the transport-failure handler catches it and retries; here the second
attempt succeeds and its body is returned after two consumed attempts. -/
theorem req_404_counterexample :
    clientErrorAttempt (afterNotFoundOk 0) = true ∧
    req afterNotFoundOk 4 = ReqResult.ok 42 2 ∧
    ∀ m, req afterNotFoundOk 4 ≠ ReqResult.raised m 1 := by
  refine ⟨by decide, by decide, ?_⟩
  intro m hc
  have h2 : req afterNotFoundOk 4 = ReqResult.ok 42 2 := by decide
  rw [h2] at hc
  exact ReqResult.noConfusion hc

/-- C4 amended: a response whose status is an HTTP error other than 429, 418
or a 5xx is caught by the transport-failure handler like any
`requests.RequestException` and retried; when every attempt yields such a
status, `_req` consumes the whole attempt budget and then raises the last
`HTTPError`. -/
theorem req_client_error_exhausts (outcomes : Nat → HttpAttempt α) (tries : Nat)
    (h1 : 1 ≤ tries) (herr : ∀ i, i < tries → clientErrorAttempt (outcomes i) = true) :
    req outcomes tries =
      ReqResult.raised (httpErrMsg (attemptStatus (outcomes (tries - 1)))) tries := by
  suffices hgen : ∀ (rem i : Nat) (last : Option String), 1 ≤ rem →
      (∀ j, i ≤ j → j < i + rem → clientErrorAttempt (outcomes j) = true) →
      reqLoop outcomes i rem last =
        ReqResult.raised (httpErrMsg (attemptStatus (outcomes (i + rem - 1)))) (i + rem) by
    have := hgen tries 0 none h1 (fun j _ hj => herr j (by omega))
    simpa [req] using this
  intro rem
  induction rem with
  | zero => intro i last h1' _; omega
  | succ k ih =>
    intro i last _ herr'
    have hi := herr' i le_rfl (by omega)
    obtain ⟨s, b, hsb⟩ : ∃ s b, outcomes i = .resp s b := by
      cases ho : outcomes i with
      | resp s b => exact ⟨s, b, rfl⟩
      | exn m => rw [ho] at hi; simp [clientErrorAttempt] at hi
    rw [hsb] at hi
    simp only [clientErrorAttempt, Bool.and_eq_true, Bool.not_eq_true',
      decide_eq_true_eq, decide_eq_false_iff_not] at hi
    obtain ⟨⟨⟨h400, h500⟩, h429⟩, h418⟩ := hi
    have hc1 : ¬(s = 429 ∨ s = 418) := by omega
    have hc2 : ¬(500 ≤ s ∧ s < 600) := by omega
    have hc3 : 400 ≤ s ∧ s < 600 := by omega
    have hstep : reqLoop outcomes i (k + 1) last =
        reqLoop outcomes (i + 1) k (some (httpErrMsg s)) := by
      simp only [reqLoop, hsb]
      rw [if_neg hc1, if_neg hc2, if_pos hc3]
    cases k with
    | zero =>
      rw [hstep, reqLoop]
      simp [hsb, attemptStatus]
    | succ k' =>
      rw [hstep, ih (i + 1) (some (httpErrMsg s)) (by omega)
        (fun j hj1 hj2 => herr' j (by omega) (by omega))]
      have e1 : i + 1 + (k' + 1) - 1 = i + (k' + 1 + 1) - 1 := by omega
      have e2 : i + 1 + (k' + 1) = i + (k' + 1 + 1) := by omega
      rw [e1, e2]

/-- Attempt schedule that yields a 404 response on every attempt. -/
def allNotFound : Nat → HttpAttempt Nat := fun _ => .resp 404 0

/-- Witness for `req_client_error_exhausts` on a schedule of four straight
404 responses. -/
theorem req_client_error_exhausts_witness :
    (1 ≤ 4 ∧ ∀ i, i < 4 → clientErrorAttempt (allNotFound i) = true) ∧
    req allNotFound 4 = ReqResult.raised (httpErrMsg (attemptStatus (allNotFound 3))) 4 :=
  ⟨⟨by decide, by decide⟩, req_client_error_exhausts allNotFound 4 (by decide) (by decide)⟩

/-- C5 (code bug): `_dedupe_by_day` maps a timestamp to a calendar day with
`date.fromtimestamp`, i.e. the machine's local timezone, not UTC truncation:
on a UTC−05:00 machine (offset −18000 s) the epoch timestamp 0 ms lands on
day −1 (1969-12-31) although its UTC truncation is day 0 (1970-01-01).  With
offset 0 the two coincide. -/
theorem dedupe_by_day_uses_local_time :
    dedupe_by_day (-18000) [((0 : Int), (2 : ℚ))] = [((-1 : Int), (2 : ℚ))] ∧
    utcDayOfMs 0 = 0 ∧ localDayOfMs (-18000) 0 = -1 ∧
    dedupe_by_day 0 [((0 : Int), (2 : ℚ))] = [((0 : Int), (2 : ℚ))] := by decide

/-- C8 (code bug): `_dedupe_by_day` composed with the `_ms` re-encoding is not
idempotent on a machine west of UTC: `_ms` writes midnight UTC while
`date.fromtimestamp` reads it in local time, so on a UTC−05:00 machine every
day shifts back by one on the second application. -/
theorem dedupe_by_day_not_idempotent_west :
    dedupe_by_day (-18000) [((0 : Int), (2 : ℚ))] = [((-1 : Int), (2 : ℚ))] ∧
    dedupe_by_day (-18000) (payloadOf (dedupe_by_day (-18000) [((0 : Int), (2 : ℚ))]))
        = [((-2 : Int), (2 : ℚ))] ∧
    dedupe_by_day (-18000) (payloadOf (dedupe_by_day (-18000) [((0 : Int), (2 : ℚ))]))
        ≠ dedupe_by_day (-18000) [((0 : Int), (2 : ℚ))] := by decide

/-- The last element of a list according to `getLast?` is a member. -/
theorem mem_of_getLast?_eq (l : List α) (p : α) (h : l.getLast? = some p) : p ∈ l := by
  obtain ⟨hne, heq⟩ := List.mem_getLast?_eq_getLast h
  rw [heq]
  exact List.getLast_mem hne

/-- In a `leDay`-sorted series, every entry's day is bounded by the day of the
entry `getLast?` returns. -/
theorem day_le_getLast (s : Series) (p : PricePoint) (hs : s.Pairwise leDay)
    (hl : s.getLast? = some p) : ∀ q ∈ s, q.1 ≤ p.1 := by
  induction s with
  | nil => simp at hl
  | cons x t ih =>
    cases t with
    | nil =>
      simp only [List.getLast?_singleton, Option.some.injEq] at hl
      intro q hq
      simp only [List.mem_singleton] at hq
      subst hq; subst hl; exact le_refl _
    | cons y t' =>
      rw [List.getLast?_cons_cons] at hl
      intro q hq
      rcases List.mem_cons.mp hq with rfl | hq'
      · have hp : p ∈ y :: t' := mem_of_getLast?_eq _ _ hl
        exact (List.pairwise_cons.mp hs).1 p hp
      · exact ih (List.pairwise_cons.mp hs).2 hl q hq'

/-- Filtering a `leDay`-sorted series with an upward-closed day predicate
returns a suffix of the series. -/
theorem filter_cutoff_suffix (l : Series) (c : Int) (hs : l.Pairwise leDay) :
    l.filter (fun q => decide (c ≤ q.1)) <:+ l := by
  induction l with
  | nil => exact List.suffix_refl _
  | cons x t ih =>
    rw [List.filter_cons]
    by_cases hx : c ≤ x.1
    · rw [if_pos (by simpa using hx)]
      have ht : t.filter (fun q => decide (c ≤ q.1)) = t := by
        rw [List.filter_eq_self]
        intro q hq
        simpa using le_trans hx ((List.pairwise_cons.mp hs).1 q hq)
      rw [ht]
    · rw [if_neg (by simpa using hx)]
      exact (ih (List.pairwise_cons.mp hs).2).trans (List.suffix_cons x t)

/-- C6: on a nonempty ascending series, `_slice_last_days` returns exactly the
entries whose date is at least `series[-1].date - (days-1)`; that selection is
a suffix of the series, all its dates lie in the trailing `N`-day window
`[last-(N-1), last]`, its length never exceeds the series' length, and the
empty series maps to the empty series. -/
theorem slice_last_days_spec (s : Series) (N : Int) (p : PricePoint)
    (hl : s.getLast? = some p) (hs : s.Pairwise leDay) (hN : 1 ≤ N) :
    slice_last_days s N <:+ s ∧
    (∀ q, q ∈ slice_last_days s N ↔ q ∈ s ∧ p.1 - (N - 1) ≤ q.1) ∧
    (∀ q ∈ slice_last_days s N, p.1 - (N - 1) ≤ q.1 ∧ q.1 ≤ p.1) ∧
    (slice_last_days s N).length ≤ s.length ∧
    slice_last_days ([] : Series) N = [] := by
  have hdef : slice_last_days s N = s.filter (fun q => decide (p.1 - (N - 1) ≤ q.1)) := by
    unfold slice_last_days
    rw [hl]
  refine ⟨?_, ?_, ?_, ?_, rfl⟩
  · rw [hdef]; exact filter_cutoff_suffix s _ hs
  · intro q
    rw [hdef, List.mem_filter]
    simp
  · intro q hq
    rw [hdef] at hq
    have hmf := List.mem_filter.mp hq
    exact ⟨by simpa using hmf.2, day_le_getLast s p hs hl q hmf.1⟩
  · rw [hdef]; exact List.length_filter_le _ _

/-- Witness for `slice_last_days_spec` on the 3-point series with days 0, 5, 9
and a 5-day window. -/
theorem slice_last_days_spec_witness :
    (([((0 : Int), (1 : ℚ)), ((5 : Int), (2 : ℚ)), ((9 : Int), (3 : ℚ))] : Series).getLast? =
        some ((9 : Int), (3 : ℚ)) ∧
     ([((0 : Int), (1 : ℚ)), ((5 : Int), (2 : ℚ)), ((9 : Int), (3 : ℚ))] : Series).Pairwise leDay ∧
     (1 : Int) ≤ 5) ∧
    (slice_last_days [((0 : Int), (1 : ℚ)), ((5 : Int), (2 : ℚ)), ((9 : Int), (3 : ℚ))] 5 <:+
        [((0 : Int), (1 : ℚ)), ((5 : Int), (2 : ℚ)), ((9 : Int), (3 : ℚ))] ∧
     (∀ q, q ∈ slice_last_days [((0 : Int), (1 : ℚ)), ((5 : Int), (2 : ℚ)), ((9 : Int), (3 : ℚ))] 5 ↔
        q ∈ ([((0 : Int), (1 : ℚ)), ((5 : Int), (2 : ℚ)), ((9 : Int), (3 : ℚ))] : Series) ∧
          (9 : Int) - (5 - 1) ≤ q.1) ∧
     (∀ q ∈ slice_last_days [((0 : Int), (1 : ℚ)), ((5 : Int), (2 : ℚ)), ((9 : Int), (3 : ℚ))] 5,
        (9 : Int) - (5 - 1) ≤ q.1 ∧ q.1 ≤ (9 : Int)) ∧
     (slice_last_days [((0 : Int), (1 : ℚ)), ((5 : Int), (2 : ℚ)), ((9 : Int), (3 : ℚ))] 5).length ≤
        ([((0 : Int), (1 : ℚ)), ((5 : Int), (2 : ℚ)), ((9 : Int), (3 : ℚ))] : Series).length ∧
     slice_last_days ([] : Series) 5 = []) :=
  ⟨⟨by decide, by decide, by decide⟩,
    slice_last_days_spec _ 5 ((9 : Int), (3 : ℚ)) (by decide) (by decide) (by decide)⟩

/-- The synthetic stable-coin series lists `days` consecutive calendar days in
ascending order, ending at `today`. -/
theorem stableSeries_eq (t : Int) (n : Nat) :
    stableSeries t n =
      (List.range n).map (fun (i : Nat) => (t - ((n : Int) - 1) + (i : Int), (1 : ℚ))) := by
  unfold stableSeries
  rw [List.range_eq_range', List.reverse_range', List.map_map, ← List.range_eq_range']
  apply List.map_congr_left
  intro a ha
  rw [List.mem_range] at ha
  simp only [Function.comp_apply]
  have h1 : ((0 + n - 1 - a : Nat) : Int) = (n : Int) - 1 - (a : Int) := by omega
  rw [h1]
  congr 1
  omega

/-- C2: for a stable symbol (any letter case) and positive window `days`, the
engine returns exactly `days` points, one per consecutive calendar day ending
today, each priced exactly 1.00, with no failure reason, no cache read, no
cache write and no upstream request. -/
theorem fetch_stable_spec (env : Env) (symbol : String) (days : Nat)
    (hst : pyUpper symbol ∈ STABLES) (hd : 1 ≤ days) :
    (fetch_daily_prices_with_reason env symbol days).series =
      (List.range days).map
        (fun (i : Nat) => (env.today - ((days : Int) - 1) + (i : Int), (1 : ℚ))) ∧
    (fetch_daily_prices_with_reason env symbol days).series.length = days ∧
    (fetch_daily_prices_with_reason env symbol days).reason = none ∧
    (fetch_daily_prices_with_reason env symbol days).cacheReads = 0 ∧
    (fetch_daily_prices_with_reason env symbol days).writes = [] ∧
    (fetch_daily_prices_with_reason env symbol days).netCalls = 0 := by
  have hf : fetch_daily_prices_with_reason env symbol days =
      ⟨stableSeries env.today days, none, 0, [], 0⟩ := by
    unfold fetch_daily_prices_with_reason
    simp [hst]
  rw [hf]
  exact ⟨stableSeries_eq _ _, by simp [stableSeries], rfl, rfl, rfl, rfl⟩

/-- A concrete environment (UTC machine, empty cache, every upstream strategy
failing) used by witnesses. -/
def wEnv : Env where
  tz := 0
  today := 20000
  now := 0
  cache := fun _ _ => none
  daily := fun _ _ => .error "404 Error"
  std := fun _ _ => .error "429 rate limited"
  maxChart := fun _ => .error "max failed"
  ohlc := fun _ _ => .error "ohlc failed"
  range := fun _ _ => .error "range failed"

/-- Witness for `fetch_stable_spec`: the lowercase stable symbol `usdt` over a
3-day window. -/
theorem fetch_stable_spec_witness :
    (pyUpper "usdt" ∈ STABLES ∧ 1 ≤ 3) ∧
    ((fetch_daily_prices_with_reason wEnv "usdt" 3).series =
      (List.range 3).map
        (fun (i : Nat) => (wEnv.today - ((3 : Int) - 1) + (i : Int), (1 : ℚ))) ∧
     (fetch_daily_prices_with_reason wEnv "usdt" 3).series.length = 3 ∧
     (fetch_daily_prices_with_reason wEnv "usdt" 3).reason = none ∧
     (fetch_daily_prices_with_reason wEnv "usdt" 3).cacheReads = 0 ∧
     (fetch_daily_prices_with_reason wEnv "usdt" 3).writes = [] ∧
     (fetch_daily_prices_with_reason wEnv "usdt" 3).netCalls = 0) :=
  ⟨⟨by decide, by decide⟩, fetch_stable_spec wEnv "usdt" 3 (by decide) (by decide)⟩

/-- Decidable equality of `Except` values with decidable components. -/
instance {e a : Type} [DecidableEq e] [DecidableEq a] : DecidableEq (Except e a) := fun x y =>
  match x, y with
  | .ok u, .ok v =>
    if h : u = v then isTrue (by rw [h]) else isFalse (by intro hc; cases hc; exact h rfl)
  | .error u, .error v =>
    if h : u = v then isTrue (by rw [h]) else isFalse (by intro hc; cases hc; exact h rfl)
  | .ok _, .error _ => isFalse (by intro hc; cases hc)
  | .error _, .ok _ => isFalse (by intro hc; cases hc)

/-- A strategy outcome the cascade treats as unusable: an exception, or an
empty point list. -/
def strategyFailed : Except String (List RawPoint) → Bool
  | .ok arr => arr.isEmpty
  | .error _ => true

/-- Environment with an empty cache in which the daily-interval strategy
raises a 404 and the standard strategy returns a single point. -/
def fallbackEnv : Env where
  tz := 0
  today := 20000
  now := 0
  cache := fun _ _ => none
  daily := fun _ _ => .error "404 Error"
  std := fun _ _ => .ok [((0 : Int), (5 : ℚ))]
  maxChart := fun _ => .error "max failed"
  ohlc := fun _ _ => .error "ohlc failed"
  range := fun _ _ => .error "range failed"

/-- C1 counterexample: the daily-interval strategy fails, the standard
strategy succeeds; the cascade does return the standard strategy's deduped and
sliced output, but the failure reason returned alongside it is `none` — the
recorded daily failure is not mentioned in the returned pair. -/
theorem fetch_fallback_reason_counterexample :
    fallbackEnv.daily "bitcoin" 30 = .error "404 Error" ∧
    fallbackEnv.std "bitcoin" 30 = .ok [((0 : Int), (5 : ℚ))] ∧
    usable (cache_get fallbackEnv.cache fallbackEnv.now "bitcoin" 30) = none ∧
    (parentLoop fallbackEnv "bitcoin" 30 [365, 180, 90]).1 = none ∧
    (fetch_daily_prices_with_reason fallbackEnv "BTC" 30).series = [((0 : Int), (5 : ℚ))] ∧
    (fetch_daily_prices_with_reason fallbackEnv "BTC" 30).reason = none := by decide

/-- A successful standard-chart strategy returns its deduped/sliced series
with no reason, caching it under the requested window. -/
theorem stage_std_success (env : Env) (cgId : String) (days reads calls : Nat)
    (reason : Option String) (arr : List RawPoint)
    (hstd : env.std cgId days = .ok arr) (harr : arr.isEmpty = false) :
    stage_std env cgId days reads calls reason =
      ⟨chartSlice (dedupe_by_day env.tz arr) days, none, reads,
       [(cgId, days, payloadOf (chartSlice (dedupe_by_day env.tz arr) days))], calls + 1⟩ := by
  unfold stage_std
  rw [hstd]
  simp [harr]

/-- C1 amended: for a mapped non-stable symbol with no usable exact or parent
cache entry, when the daily-interval strategy yields no usable data and the
standard strategy returns a non-empty list, the cascade returns the standard
strategy's output deduplicated by day and trimmed to the trailing `days`
points and caches it — but the failure reason returned alongside the series is
`none`; the daily strategy's failure is only kept in the internal accumulator,
which is surfaced solely when every strategy fails. -/
theorem fetch_daily_fallback_std (env : Env) (symbol : String) (days : Nat)
    (cgId : String) (arr : List RawPoint)
    (hns : pyUpper symbol ∉ STABLES)
    (hmap : CG_IDS.lookup (pyUpper symbol) = some cgId)
    (hex : usable (cache_get env.cache env.now cgId days) = none)
    (hpar : (parentLoop env cgId days [365, 180, 90]).1 = none)
    (hdaily : strategyFailed (env.daily cgId days) = true)
    (hstd : env.std cgId days = .ok arr) (harr : arr.isEmpty = false) :
    (fetch_daily_prices_with_reason env symbol days).series =
      chartSlice (dedupe_by_day env.tz arr) days ∧
    (fetch_daily_prices_with_reason env symbol days).reason = none ∧
    (fetch_daily_prices_with_reason env symbol days).writes =
      [(cgId, days, payloadOf (chartSlice (dedupe_by_day env.tz arr) days))] := by
  have hfe : fetch_daily_prices_with_reason env symbol days =
      stage_daily env cgId days (1 + (parentLoop env cgId days [365, 180, 90]).2) 0 := by
    unfold fetch_daily_prices_with_reason
    rcases hp : parentLoop env cgId days [365, 180, 90] with ⟨o, n⟩
    have ho : o = none := by rw [hp] at hpar; exact hpar
    subst ho
    simp [hns, hmap, hex, hp]
  have hsd : stage_daily env cgId days (1 + (parentLoop env cgId days [365, 180, 90]).2) 0 =
      ⟨chartSlice (dedupe_by_day env.tz arr) days, none,
       1 + (parentLoop env cgId days [365, 180, 90]).2,
       [(cgId, days, payloadOf (chartSlice (dedupe_by_day env.tz arr) days))], 0 + 1 + 1⟩ := by
    unfold stage_daily
    rcases hd2 : env.daily cgId days with m | arr2
    · simp only [hd2]
      rw [stage_std_success env cgId days _ _ _ arr hstd harr]
    · rw [hd2] at hdaily
      simp only [strategyFailed] at hdaily
      simp only [hd2]
      rw [if_pos hdaily]
      rw [stage_std_success env cgId days _ _ _ arr hstd harr]
  rw [hfe, hsd]
  exact ⟨rfl, rfl, rfl⟩

/-- Witness for `fetch_daily_fallback_std` on `fallbackEnv` with symbol `BTC`
and a 30-day window. -/
theorem fetch_daily_fallback_std_witness :
    (pyUpper "BTC" ∉ STABLES ∧
     CG_IDS.lookup (pyUpper "BTC") = some "bitcoin" ∧
     usable (cache_get fallbackEnv.cache fallbackEnv.now "bitcoin" 30) = none ∧
     (parentLoop fallbackEnv "bitcoin" 30 [365, 180, 90]).1 = none ∧
     strategyFailed (fallbackEnv.daily "bitcoin" 30) = true ∧
     fallbackEnv.std "bitcoin" 30 = .ok [((0 : Int), (5 : ℚ))] ∧
     ([((0 : Int), (5 : ℚ))] : List RawPoint).isEmpty = false) ∧
    ((fetch_daily_prices_with_reason fallbackEnv "BTC" 30).series =
       chartSlice (dedupe_by_day fallbackEnv.tz [((0 : Int), (5 : ℚ))]) 30 ∧
     (fetch_daily_prices_with_reason fallbackEnv "BTC" 30).reason = none ∧
     (fetch_daily_prices_with_reason fallbackEnv "BTC" 30).writes =
       [("bitcoin", 30, payloadOf (chartSlice (dedupe_by_day fallbackEnv.tz
          [((0 : Int), (5 : ℚ))]) 30))]) :=
  ⟨⟨by decide, by decide, by decide, by decide, by decide, by decide, by decide⟩,
   fetch_daily_fallback_std fallbackEnv "BTC" 30 "bitcoin" [((0 : Int), (5 : ℚ))]
     (by decide) (by decide) (by decide) (by decide) (by decide) (by decide) (by decide)⟩

/-- Seven daily points at UTC midnights, priced 1 — a small cached 365-day
payload. -/
def stalePayload : List RawPoint :=
  (List.range 7).map (fun (i : Nat) => (ms (i : Int), (1 : ℚ)))

/-- Environment whose cache holds only a stale (age 21601 s > 6-hour TTL)
365-day entry for bitcoin whose deduped series has 7 points, and whose
upstream strategies all fail. -/
def staleEnv : Env where
  tz := 0
  today := 20000
  now := 21601
  cache := fun cid d => if cid = "bitcoin" ∧ d = 365 then some ⟨stalePayload, 0⟩ else none
  daily := fun _ _ => .error "404 Error"
  std := fun _ _ => .error "std failed"
  maxChart := fun _ => .error "max failed"
  ohlc := fun _ _ => .error "ohlc failed"
  range := fun _ _ => .error "range failed"

/-- C3 counterexample: the parent-window fallback reads the cache through the
TTL-respecting `_cache_get`, so a stale 365-day entry with enough points is
not used — the request for 7 days proceeds to the network (5 strategy
attempts) and ends with an empty series instead of the parent's trailing 7
points. -/
theorem fetch_parent_ttl_counterexample :
    cache_get_raw staleEnv.cache "bitcoin" 365 = some stalePayload ∧
    7 ≤ (dedupe_by_day staleEnv.tz stalePayload).length ∧
    cache_get staleEnv.cache staleEnv.now "bitcoin" 365 = none ∧
    usable (cache_get staleEnv.cache staleEnv.now "bitcoin" 7) = none ∧
    (fetch_daily_prices_with_reason staleEnv "BTC" 7).series = [] ∧
    (fetch_daily_prices_with_reason staleEnv "BTC" 7).netCalls = 5 := by decide

/-- A resolved symbol whose exact window misses and whose parent loop hits
returns the parent slice with no network traffic and no cache write. -/
theorem fetch_parent_hit (env : Env) (symbol : String) (days : Nat) (cgId : String)
    (s : Series) (n : Nat)
    (hns : pyUpper symbol ∉ STABLES)
    (hmap : CG_IDS.lookup (pyUpper symbol) = some cgId)
    (hex : usable (cache_get env.cache env.now cgId days) = none)
    (hpl : parentLoop env cgId days [365, 180, 90] = (some s, n)) :
    fetch_daily_prices_with_reason env symbol days = ⟨s, none, 1 + n, [], 0⟩ := by
  unfold fetch_daily_prices_with_reason
  simp [hns, hmap, hex, hpl]

/-- C3 amended: the slice-from-larger-window fallback accepts a cached parent
window (365, 180, 90 in that order, among parents `> days`) only when the
parent entry is *fresh* with respect to the 6-hour TTL (the TTL-ignoring raw
read is used only by the prewarm deriver); given such a fresh, non-empty
parent whose deduped series has at least `days` points — earlier parents
being unusable — it returns the trailing `days` points of the parent series
with no network call and no cache write. -/
theorem fetch_parent_slice_fresh (env : Env) (symbol : String) (days : Nat)
    (cgId : String) (p : Nat) (c : List RawPoint)
    (hns : pyUpper symbol ∉ STABLES)
    (hmap : CG_IDS.lookup (pyUpper symbol) = some cgId)
    (hex : usable (cache_get env.cache env.now cgId days) = none)
    (hp : p ∈ [365, 180, 90]) (hgt : days < p)
    (hfresh : cache_get env.cache env.now cgId p = some c)
    (hne : c.isEmpty = false)
    (hlen : days ≤ (dedupe_by_day env.tz c).length)
    (hprev : ∀ q ∈ [365, 180, 90], p < q → days < q → parentUsable env cgId days q = none) :
    (fetch_daily_prices_with_reason env symbol days).series =
      pyLastN (dedupe_by_day env.tz c) days ∧
    (fetch_daily_prices_with_reason env symbol days).reason = none ∧
    (fetch_daily_prices_with_reason env symbol days).netCalls = 0 ∧
    (fetch_daily_prices_with_reason env symbol days).writes = [] := by
  have husable : parentUsable env cgId days p =
      some (pyLastN (dedupe_by_day env.tz c) days) := by
    unfold parentUsable
    rw [hfresh]
    simp [usable, hne, hlen]
  simp only [List.mem_cons, List.not_mem_nil, or_false] at hp
  have hresult : ∃ n, parentLoop env cgId days [365, 180, 90] =
      (some (pyLastN (dedupe_by_day env.tz c) days), n) := by
    rcases hp with rfl | rfl | rfl
    · refine ⟨1, ?_⟩
      unfold parentLoop
      rw [if_pos hgt]
      simp only [husable]
    · have h365 : parentUsable env cgId days 365 = none :=
        hprev 365 (by simp) (by omega) (by omega)
      have d365 : days < 365 := by omega
      refine ⟨2, ?_⟩
      simp [parentLoop, d365, h365, hgt, husable]
    · have h365 : parentUsable env cgId days 365 = none :=
        hprev 365 (by simp) (by omega) (by omega)
      have h180 : parentUsable env cgId days 180 = none :=
        hprev 180 (by simp) (by omega) (by omega)
      have d365 : days < 365 := by omega
      have d180 : days < 180 := by omega
      refine ⟨3, ?_⟩
      simp [parentLoop, d365, d180, h365, h180, hgt, husable]
  obtain ⟨n, hpl⟩ := hresult
  rw [fetch_parent_hit env symbol days cgId _ n hns hmap hex hpl]
  exact ⟨rfl, rfl, rfl, rfl⟩

/-- Environment whose cache holds a *fresh* 365-day entry for bitcoin with 7
deduped points; the upstream strategies would all fail if consulted. -/
def freshParentEnv : Env where
  tz := 0
  today := 20000
  now := 100
  cache := fun cid d => if cid = "bitcoin" ∧ d = 365 then some ⟨stalePayload, 0⟩ else none
  daily := fun _ _ => .error "404 Error"
  std := fun _ _ => .error "std failed"
  maxChart := fun _ => .error "max failed"
  ohlc := fun _ _ => .error "ohlc failed"
  range := fun _ _ => .error "range failed"

/-- Witness for `fetch_parent_slice_fresh`: a fresh 365-day bitcoin entry
serving a 7-day request. -/
theorem fetch_parent_slice_fresh_witness :
    (pyUpper "BTC" ∉ STABLES ∧
     CG_IDS.lookup (pyUpper "BTC") = some "bitcoin" ∧
     usable (cache_get freshParentEnv.cache freshParentEnv.now "bitcoin" 7) = none ∧
     365 ∈ [365, 180, 90] ∧ 7 < 365 ∧
     cache_get freshParentEnv.cache freshParentEnv.now "bitcoin" 365 = some stalePayload ∧
     stalePayload.isEmpty = false ∧
     7 ≤ (dedupe_by_day freshParentEnv.tz stalePayload).length ∧
     (∀ q ∈ [365, 180, 90], 365 < q → 7 < q →
        parentUsable freshParentEnv "bitcoin" 7 q = none)) ∧
    ((fetch_daily_prices_with_reason freshParentEnv "BTC" 7).series =
       pyLastN (dedupe_by_day freshParentEnv.tz stalePayload) 7 ∧
     (fetch_daily_prices_with_reason freshParentEnv "BTC" 7).reason = none ∧
     (fetch_daily_prices_with_reason freshParentEnv "BTC" 7).netCalls = 0 ∧
     (fetch_daily_prices_with_reason freshParentEnv "BTC" 7).writes = []) :=
  ⟨⟨by decide, by decide, by decide, by decide, by decide, by decide, by decide, by decide,
    by decide⟩,
   fetch_parent_slice_fresh freshParentEnv "BTC" 7 "bitcoin" 365 stalePayload
     (by decide) (by decide) (by decide) (by decide) (by decide) (by decide) (by decide)
     (by decide) (by decide)⟩

/-- Strict day order on price points. -/
def ltDay (a b : PricePoint) : Prop := a.1 < b.1

/-- The day keys of a dict after `dictInsert`: unchanged on update, appended on
fresh insert. -/
theorem dictInsert_fst (k : Int) (v : ℚ) (m : List (Int × ℚ)) :
    (dictInsert k v m).map Prod.fst =
      if k ∈ m.map Prod.fst then m.map Prod.fst else m.map Prod.fst ++ [k] := by
  induction m with
  | nil => simp [dictInsert]
  | cons x t ih =>
    obtain ⟨k', v'⟩ := x
    by_cases hx : k' = k
    · subst hx
      simp [dictInsert]
    · simp only [dictInsert, if_neg hx, List.map_cons]
      rw [ih]
      by_cases hk : k ∈ t.map Prod.fst
      · rw [if_pos hk, if_pos (by simp [hk])]
      · rw [if_neg hk, if_neg (by simp [hk, Ne.symm hx]), List.cons_append]

/-- `dictInsert` preserves distinctness of the day keys. -/
theorem dictInsert_nodup (k : Int) (v : ℚ) (m : List (Int × ℚ))
    (hm : (m.map Prod.fst).Nodup) : ((dictInsert k v m).map Prod.fst).Nodup := by
  rw [dictInsert_fst]
  by_cases hk : k ∈ m.map Prod.fst
  · rw [if_pos hk]; exact hm
  · rw [if_neg hk]
    rw [List.nodup_append]
    refine ⟨hm, List.nodup_singleton k, ?_⟩
    intro a ha hb
    rw [List.mem_singleton] at hb
    exact hk (hb ▸ ha)

/-- `dictInsert` grows the dict by at most one entry. -/
theorem dictInsert_length (k : Int) (v : ℚ) (m : List (Int × ℚ)) :
    (dictInsert k v m).length ≤ m.length + 1 := by
  have h := congrArg List.length (dictInsert_fst k v m)
  simp only [List.length_map] at h
  by_cases hk : k ∈ m.map Prod.fst
  · rw [if_pos hk] at h; simp only [List.length_map] at h; omega
  · rw [if_neg hk] at h
    simp only [List.length_append, List.length_map, List.length_singleton] at h
    omega

/-- The day-keyed dict built by `_dedupe_by_day`'s fold has distinct keys. -/
theorem dict_fold_nodup (tz : Int) (raw : List RawPoint) :
    ∀ (m : List (Int × ℚ)), (m.map Prod.fst).Nodup →
      ((raw.foldl (fun per p => dictInsert (localDayOfMs tz p.1) p.2 per) m).map
        Prod.fst).Nodup := by
  induction raw with
  | nil => intro m hm; exact hm
  | cons p t ih =>
    intro m hm
    exact ih _ (dictInsert_nodup _ _ _ hm)

/-- The dict built by the fold has at most one entry per raw point. -/
theorem dict_fold_length (tz : Int) (raw : List RawPoint) :
    ∀ (m : List (Int × ℚ)),
      (raw.foldl (fun per p => dictInsert (localDayOfMs tz p.1) p.2 per) m).length ≤
        m.length + raw.length := by
  induction raw with
  | nil => intro m; simp
  | cons p t ih =>
    intro m
    calc (t.foldl _ (dictInsert (localDayOfMs tz p.1) p.2 m)).length ≤
        (dictInsert (localDayOfMs tz p.1) p.2 m).length + t.length := ih _
      _ ≤ m.length + (p :: t).length := by
          have := dictInsert_length (localDayOfMs tz p.1) p.2 m
          simp only [List.length_cons]
          omega

/-- `_dedupe_by_day` yields at most one point per raw point. -/
theorem dedupe_length_le (tz : Int) (raw : List RawPoint) :
    (dedupe_by_day tz raw).length ≤ raw.length := by
  unfold dedupe_by_day
  rw [List.length_insertionSort]
  simpa using dict_fold_length tz raw []

/-- `_dedupe_by_day` yields distinct day keys. -/
theorem dedupe_nodup (tz : Int) (raw : List RawPoint) :
    ((dedupe_by_day tz raw).map Prod.fst).Nodup := by
  unfold dedupe_by_day
  have hperm := (List.perm_insertionSort leDay
    (raw.foldl (fun per p => dictInsert (localDayOfMs tz p.1) p.2 per) [])).map Prod.fst
  rw [hperm.nodup_iff]
  exact dict_fold_nodup tz raw [] (by simp)

/-- A series sorted weakly by day with distinct day keys is sorted strictly. -/
theorem pairwise_lt_of_le_nodup (l : Series) (hle : l.Pairwise leDay)
    (hnd : (l.map Prod.fst).Nodup) : l.Pairwise ltDay := by
  induction l with
  | nil => exact List.Pairwise.nil
  | cons x t ih =>
    rw [List.pairwise_cons] at hle ⊢
    simp only [List.map_cons, List.nodup_cons] at hnd
    refine ⟨fun q hq => ?_, ih hle.2 hnd.2⟩
    have h1 : x.1 ≤ q.1 := hle.1 q hq
    have h2 : x.1 ≠ q.1 := fun hc => hnd.1 (hc ▸ List.mem_map_of_mem Prod.fst hq)
    exact lt_of_le_of_ne h1 h2

/-- `_dedupe_by_day` output is strictly ascending by day. -/
theorem dedupe_pairwise (tz : Int) (raw : List RawPoint) :
    (dedupe_by_day tz raw).Pairwise ltDay := by
  apply pairwise_lt_of_le_nodup
  · exact List.sorted_insertionSort leDay _
  · exact dedupe_nodup tz raw

/-- `pyLastN` never grows a list. -/
theorem pyLastN_length_le (l : List α) (n : Nat) : (pyLastN l n).length ≤ l.length := by
  unfold pyLastN
  by_cases h : n = 0
  · rw [if_pos h]
  · rw [if_neg h, List.length_drop]; omega

/-- `pyLastN` returns exactly `n` elements when `1 ≤ n ≤ |l|`. -/
theorem pyLastN_length_eq (l : List α) (n : Nat) (h1 : 1 ≤ n) (h2 : n ≤ l.length) :
    (pyLastN l n).length = n := by
  unfold pyLastN
  rw [if_neg (by omega), List.length_drop]
  omega

/-- `pyLastN` preserves any `Pairwise` relation. -/
theorem pyLastN_pairwise {R : PricePoint → PricePoint → Prop} (l : Series) (n : Nat)
    (h : l.Pairwise R) : (pyLastN l n).Pairwise R := by
  unfold pyLastN
  by_cases hn : n = 0
  · rw [if_pos hn]; exact h
  · rw [if_neg hn]; exact List.Pairwise.sublist (List.drop_sublist _ _) h

/-- The market-chart trim never returns more than `days` points. -/
theorem chartSlice_length_le (s : Series) (days : Nat) (hd : 1 ≤ days) :
    (chartSlice s days).length ≤ days := by
  unfold chartSlice
  by_cases h : days < s.length
  · rw [if_pos h, pyLastN_length_eq s days hd (by omega)]
  · rw [if_neg h]; omega

/-- The market-chart trim preserves strict day order. -/
theorem chartSlice_pairwise (s : Series) (days : Nat) (hs : s.Pairwise ltDay) :
    (chartSlice s days).Pairwise ltDay := by
  unfold chartSlice
  by_cases h : days < s.length
  · rw [if_pos h]; exact pyLastN_pairwise s days hs
  · rw [if_neg h]; exact hs

/-- A strictly ascending series whose days lie in `[a, b]` has at most
`b - a + 1` entries. -/
theorem pairwise_window_bound (l : Series) (b : Int) (hs : l.Pairwise ltDay)
    (hub : ∀ q ∈ l, q.1 ≤ b) :
    ∀ a : Int, (∀ q ∈ l, a ≤ q.1) → l.length ≤ (b - a + 1).toNat := by
  induction l with
  | nil => intro a _; simp
  | cons x t ih =>
    intro a hlb
    have hxa : a ≤ x.1 := hlb x (by simp)
    have hxb : x.1 ≤ b := hub x (by simp)
    have hpc := List.pairwise_cons.mp hs
    have ht : t.length ≤ (b - (x.1 + 1) + 1).toNat := by
      apply ih hpc.2 (fun q hq => hub q (by simp [hq])) (x.1 + 1)
      intro q hq
      have hlt := hpc.1 q hq
      unfold ltDay at hlt
      omega
    simp only [List.length_cons]
    omega

/-- `_slice_last_days` preserves strict day order. -/
theorem slice_last_days_pairwise (s : Series) (d : Int) (hs : s.Pairwise ltDay) :
    (slice_last_days s d).Pairwise ltDay := by
  unfold slice_last_days
  cases s.getLast? with
  | none => exact List.Pairwise.nil
  | some p => exact List.Pairwise.sublist (List.filter_sublist s) hs

/-- On a strictly ascending series, `_slice_last_days` keeps at most `days`
points when `days ≥ 1`. -/
theorem slice_last_days_length_le (s : Series) (days : Nat) (hd : 1 ≤ days)
    (hs : s.Pairwise ltDay) : (slice_last_days s (days : Int)).length ≤ days := by
  cases hl : s.getLast? with
  | none =>
    unfold slice_last_days
    rw [hl]
    simp
  | some p =>
    have hle : s.Pairwise leDay := hs.imp (fun {a b} h => (le_of_lt (h : a.1 < b.1) : a.1 ≤ b.1))
    have hdef : slice_last_days s (days : Int) =
        s.filter (fun q => decide (p.1 - ((days : Int) - 1) ≤ q.1)) := by
      unfold slice_last_days
      rw [hl]
    set sf := s.filter (fun q => decide (p.1 - ((days : Int) - 1) ≤ q.1)) with hsf
    have hfp : sf.Pairwise ltDay := List.Pairwise.sublist (List.filter_sublist s) hs
    have hub : ∀ q ∈ sf, q.1 ≤ p.1 := fun q hq =>
      day_le_getLast s p hle hl q (List.mem_filter.mp hq).1
    have hlb : ∀ q ∈ sf, p.1 - ((days : Int) - 1) ≤ q.1 := fun q hq => by
      simpa using (List.mem_filter.mp hq).2
    have hbound := pairwise_window_bound sf p.1 hfp hub (p.1 - ((days : Int) - 1)) hlb
    rw [hdef]
    omega

/-- The `_ms`-encoded payload of a strictly ascending series has pairwise
distinct timestamps. -/
theorem payload_fst_nodup (s : Series) (hs : s.Pairwise ltDay) :
    ((payloadOf s).map Prod.fst).Nodup := by
  unfold payloadOf
  rw [List.map_map]
  show (s.map fun p => ms p.1).Pairwise (fun a b => a ≠ b)
  rw [List.pairwise_map]
  apply hs.imp
  intro a b hab
  have h : a.1 < b.1 := hab
  unfold ms
  omega

/-- A TTL-fresh cache hit exposes the stored entry. -/
theorem cache_get_some (m : CacheMap) (now : Int) (cid : String) (d : Nat)
    (c : List RawPoint) (h : cache_get m now cid d = some c) :
    ∃ e, m cid d = some e ∧ c = e.prices := by
  unfold cache_get at h
  rcases he : m cid d with _ | e
  · rw [he] at h; cases h
  · rw [he] at h
    dsimp only at h
    by_cases ht : CACHE_TTL_SECONDS < now - e.writtenAt
    · rw [if_pos ht] at h; cases h
    · rw [if_neg ht] at h
      exact ⟨e, rfl, (Option.some.inj h).symm⟩

/-- A raw cache hit exposes the stored entry. -/
theorem cache_get_raw_some (m : CacheMap) (cid : String) (d : Nat)
    (c : List RawPoint) (h : cache_get_raw m cid d = some c) :
    ∃ e, m cid d = some e ∧ c = e.prices := by
  unfold cache_get_raw at h
  rcases he : m cid d with _ | e
  · rw [he] at h; cases h
  · rw [he] at h
    exact ⟨e, rfl, by simpa using h.symm⟩

/-- Unpacking a truthy optional list. -/
theorem usable_some {α : Type} (o : Option (List α)) (c : List α) (h : usable o = some c) :
    o = some c ∧ c.isEmpty = false := by
  rcases o with _ | l
  · cases h
  · unfold usable at h
    dsimp only at h
    by_cases he : l.isEmpty = true
    · rw [if_pos he] at h; cases h
    · rw [if_neg he] at h
      obtain rfl := Option.some.inj h
      exact ⟨rfl, by simpa using he⟩

/-- The synthetic stable series has `days` points. -/
theorem stableSeries_length (t : Int) (n : Nat) : (stableSeries t n).length = n := by
  unfold stableSeries
  simp

/-- The synthetic stable series is strictly ascending by day. -/
theorem stableSeries_pairwise (t : Int) (n : Nat) : (stableSeries t n).Pairwise ltDay := by
  rw [stableSeries_eq, List.pairwise_map]
  apply (List.pairwise_lt_range n).imp
  intro a b hab
  show t - ((n : Int) - 1) + (a : Int) < t - ((n : Int) - 1) + (b : Int)
  omega

/-- The bound every engine cache write satisfies: at most as many points as
the key's window length, with pairwise-distinct day timestamps (one point per
calendar day). -/
def GoodWrite (w : String × Nat × List RawPoint) : Prop :=
  w.2.2.length ≤ w.2.1 ∧ (w.2.2.map Prod.fst).Nodup

/-- Outcome invariant of the cascade for a `days`-day request: the returned
series has at most `days` points and is strictly ascending, and every cache
write satisfies `GoodWrite`. -/
def GoodOut (days : Nat) (out : FetchOut) : Prop :=
  out.series.length ≤ days ∧ out.series.Pairwise ltDay ∧ ∀ w ∈ out.writes, GoodWrite w

/-- The cascade's empty-handed return is well-bounded. -/
theorem finalOut_good (days reads calls : Nat) (reason : Option String) :
    GoodOut days (finalOut reads calls reason) :=
  ⟨by simp [finalOut], List.Pairwise.nil, by simp [finalOut]⟩

/-- A market-chart-shaped strategy hit is well-bounded. -/
theorem chart_hit_good (tz : Int) (days reads calls : Nat) (cgId : String)
    (arr : List RawPoint) (hd : 1 ≤ days) :
    GoodOut days ⟨chartSlice (dedupe_by_day tz arr) days, none, reads,
      [(cgId, days, payloadOf (chartSlice (dedupe_by_day tz arr) days))], calls⟩ := by
  have hp : (chartSlice (dedupe_by_day tz arr) days).Pairwise ltDay :=
    chartSlice_pairwise _ _ (dedupe_pairwise tz arr)
  have hl : (chartSlice (dedupe_by_day tz arr) days).length ≤ days :=
    chartSlice_length_le _ _ hd
  refine ⟨hl, hp, ?_⟩
  intro w hw
  rw [List.mem_singleton] at hw
  subst hw
  exact ⟨by simpa [payloadOf] using hl, payload_fst_nodup _ hp⟩

/-- An OHLC- or range-shaped strategy hit (sliced via `_slice_last_days`) is
well-bounded. -/
theorem slice_hit_good (tz : Int) (days reads calls : Nat) (cgId : String)
    (prices : List RawPoint) (hd : 1 ≤ days) :
    GoodOut days ⟨slice_last_days (dedupe_by_day tz prices) (days : Int), none, reads,
      [(cgId, days, payloadOf (slice_last_days (dedupe_by_day tz prices) (days : Int)))],
      calls⟩ := by
  have hp : (slice_last_days (dedupe_by_day tz prices) (days : Int)).Pairwise ltDay :=
    slice_last_days_pairwise _ _ (dedupe_pairwise tz prices)
  have hl : (slice_last_days (dedupe_by_day tz prices) (days : Int)).length ≤ days :=
    slice_last_days_length_le _ _ hd (dedupe_pairwise tz prices)
  refine ⟨hl, hp, ?_⟩
  intro w hw
  rw [List.mem_singleton] at hw
  subst hw
  exact ⟨by simpa [payloadOf] using hl, payload_fst_nodup _ hp⟩

/-- Strategy 5 keeps the outcome invariant. -/
theorem stage_range_good (env : Env) (cgId : String) (days reads calls : Nat)
    (reason : Option String) (hd : 1 ≤ days) :
    GoodOut days (stage_range env cgId days reads calls reason) := by
  unfold stage_range
  cases hr : env.range cgId days with
  | error m => exact finalOut_good _ _ _ _
  | ok seg =>
    dsimp only
    by_cases he : seg.isEmpty = true
    · rw [if_pos he]; exact finalOut_good _ _ _ _
    · rw [if_neg he]; exact slice_hit_good env.tz days reads _ cgId seg hd

/-- Strategy 4 keeps the outcome invariant. -/
theorem stage_ohlc_good (env : Env) (cgId : String) (days reads calls : Nat)
    (reason : Option String) (hd : 1 ≤ days) :
    GoodOut days (stage_ohlc env cgId days reads calls reason) := by
  unfold stage_ohlc
  cases hr : env.ohlc cgId (ohlcPeriod days) with
  | error m => exact stage_range_good _ _ _ _ _ _ hd
  | ok rows =>
    dsimp only
    by_cases he : rows.isEmpty = true
    · rw [if_pos he]; exact stage_range_good _ _ _ _ _ _ hd
    · rw [if_neg he]
      exact slice_hit_good env.tz days reads _ cgId
        (rows.map (fun r => ((r.1, r.2.2.2.2) : RawPoint))) hd

/-- Strategy 3 keeps the outcome invariant. -/
theorem stage_max_good (env : Env) (cgId : String) (days reads calls : Nat)
    (reason : Option String) (hd : 1 ≤ days) :
    GoodOut days (stage_max env cgId days reads calls reason) := by
  unfold stage_max
  cases hr : env.maxChart cgId with
  | error m => exact stage_ohlc_good _ _ _ _ _ _ hd
  | ok arr =>
    dsimp only
    by_cases he : arr.isEmpty = true
    · rw [if_pos he]; exact stage_ohlc_good _ _ _ _ _ _ hd
    · rw [if_neg he]; exact chart_hit_good env.tz days reads _ cgId arr hd

/-- Strategy 2 keeps the outcome invariant. -/
theorem stage_std_good (env : Env) (cgId : String) (days reads calls : Nat)
    (reason : Option String) (hd : 1 ≤ days) :
    GoodOut days (stage_std env cgId days reads calls reason) := by
  unfold stage_std
  cases hr : env.std cgId days with
  | error m => exact stage_max_good _ _ _ _ _ _ hd
  | ok arr =>
    dsimp only
    by_cases he : arr.isEmpty = true
    · rw [if_pos he]; exact stage_max_good _ _ _ _ _ _ hd
    · rw [if_neg he]; exact chart_hit_good env.tz days reads _ cgId arr hd

/-- Strategy 1 keeps the outcome invariant. -/
theorem stage_daily_good (env : Env) (cgId : String) (days reads calls : Nat)
    (hd : 1 ≤ days) : GoodOut days (stage_daily env cgId days reads calls) := by
  unfold stage_daily
  cases hr : env.daily cgId days with
  | error m => exact stage_std_good _ _ _ _ _ _ hd
  | ok arr =>
    dsimp only
    by_cases he : arr.isEmpty = true
    · rw [if_pos he]; exact stage_std_good _ _ _ _ _ _ hd
    · rw [if_neg he]; exact chart_hit_good env.tz days reads _ cgId arr hd

/-- A usable parent slice has exactly `days` strictly ascending points. -/
theorem parentUsable_some (env : Env) (cgId : String) (days parent : Nat) (s : Series)
    (hd : 1 ≤ days) (h : parentUsable env cgId days parent = some s) :
    s.length = days ∧ s.Pairwise ltDay := by
  unfold parentUsable at h
  cases hu : usable (cache_get env.cache env.now cgId parent) with
  | none => rw [hu] at h; cases h
  | some c =>
    rw [hu] at h
    dsimp only at h
    by_cases hl : days ≤ (dedupe_by_day env.tz c).length
    · rw [if_pos hl] at h
      obtain rfl := Option.some.inj h
      exact ⟨pyLastN_length_eq _ _ hd hl, pyLastN_pairwise _ _ (dedupe_pairwise _ _)⟩
    · rw [if_neg hl] at h; cases h

/-- A parent-loop hit has exactly `days` strictly ascending points. -/
theorem parentLoop_some (env : Env) (cgId : String) (days : Nat) (hd : 1 ≤ days) :
    ∀ (ps : List Nat) (s : Series) (n : Nat),
      parentLoop env cgId days ps = (some s, n) → s.length = days ∧ s.Pairwise ltDay := by
  intro ps
  induction ps with
  | nil =>
    intro s n h
    simp [parentLoop] at h
  | cons p rest ih =>
    intro s n h
    unfold parentLoop at h
    by_cases hp : days < p
    · rw [if_pos hp] at h
      cases hu : parentUsable env cgId days p with
      | some sp =>
        rw [hu] at h
        dsimp only at h
        have hs : sp = s := by
          have := congrArg Prod.fst h
          simpa using this
        subst hs
        exact parentUsable_some env cgId days p sp hd hu
      | none =>
        rw [hu] at h
        dsimp only at h
        rcases hrec : parentLoop env cgId days rest with ⟨o, k⟩
        rw [hrec] at h
        dsimp only at h
        have ho : o = some s := by
          have := congrArg Prod.fst h
          simpa using this
        exact ih s k (by rw [hrec, ho])
    · rw [if_neg hp] at h
      exact ih s n h

/-- The bound the engine's own writes maintain on the cache: at most `d`
points under a key with window `d`. -/
def CacheInv (m : CacheMap) : Prop := ∀ cid d e, m cid d = some e → e.prices.length ≤ d

/-- The cascade's outcome invariant: under a bounded cache and a positive
window, the returned series has at most `days` strictly ascending points and
every cache write is bounded. -/
theorem fetch_good (env : Env) (symbol : String) (days : Nat)
    (hinv : CacheInv env.cache) (hd : 1 ≤ days) :
    GoodOut days (fetch_daily_prices_with_reason env symbol days) := by
  unfold fetch_daily_prices_with_reason
  by_cases hst : pyUpper symbol ∈ STABLES
  · simp only [hst, if_true]
    exact ⟨le_of_eq (stableSeries_length _ _), stableSeries_pairwise _ _, by simp⟩
  · simp only [hst, if_false]
    cases hlk : CG_IDS.lookup (pyUpper symbol) with
    | none => exact ⟨by simp, List.Pairwise.nil, by simp⟩
    | some cgId =>
      dsimp only
      cases hu : usable (cache_get env.cache env.now cgId days) with
      | some c =>
        dsimp only
        obtain ⟨ho, _⟩ := usable_some _ _ hu
        obtain ⟨e, hme, hce⟩ := cache_get_some _ _ _ _ _ ho
        refine ⟨?_, dedupe_pairwise _ _, by simp⟩
        calc (dedupe_by_day env.tz c).length ≤ c.length := dedupe_length_le _ _
          _ = e.prices.length := by rw [hce]
          _ ≤ days := hinv _ _ _ hme
      | none =>
        dsimp only
        rcases hp : parentLoop env cgId days [365, 180, 90] with ⟨o, k⟩
        cases o with
        | some s =>
          obtain ⟨hlen, hpw⟩ := parentLoop_some env cgId days hd _ s k hp
          exact ⟨le_of_eq hlen, hpw, by simp⟩
        | none => exact stage_daily_good env cgId days _ _ hd

/-- `_cache_set` of a bounded payload preserves the cache bound. -/
theorem cache_set_inv (m : CacheMap) (cid : String) (d : Nat) (p : List RawPoint)
    (now : Int) (hm : CacheInv m) (hp : p.length ≤ d) :
    CacheInv (cache_set m cid d p now) := by
  intro c dd e he
  unfold cache_set at he
  by_cases hc : c = cid ∧ dd = d
  · rw [if_pos hc] at he
    obtain rfl := Option.some.inj he
    rw [hc.2]
    exact hp
  · rw [if_neg hc] at he
    exact hm c dd e he

/-- Applying bounded writes preserves the cache bound. -/
theorem applyWrites_inv (now : Int) :
    ∀ (ws : List (String × Nat × List RawPoint)) (m : CacheMap), CacheInv m →
      (∀ w ∈ ws, GoodWrite w) → CacheInv (applyWrites m ws now) := by
  intro ws
  induction ws with
  | nil => intro m hm _; exact hm
  | cons w t ih =>
    intro m hm hw
    show CacheInv (applyWrites (cache_set m w.1 w.2.1 w.2.2 now) t now)
    exact ih _ (cache_set_inv _ _ _ _ _ hm (hw w (by simp)).1)
      (fun x hx => hw x (by simp [hx]))

/-- The 180/90-day local derivation `series[-k:] if len(series) > k else
series` is bounded by `k` and stays strictly ascending. -/
theorem derive_good (s : Series) (k : Nat) (hk : 1 ≤ k) (hpw : s.Pairwise ltDay) :
    (if k < s.length then pyLastN s k else s).length ≤ k ∧
    (if k < s.length then pyLastN s k else s).Pairwise ltDay := by
  by_cases h : k < s.length
  · simp only [if_pos h]
    exact ⟨le_of_eq (pyLastN_length_eq _ _ hk (by omega)), pyLastN_pairwise _ _ hpw⟩
  · simp only [if_neg h]
    exact ⟨by omega, hpw⟩

/-- A bounded, strictly ascending series makes a good `_cache_set` payload. -/
theorem payload_write_good (cid : String) (k : Nat) (s : Series)
    (hlen : s.length ≤ k) (hpw : s.Pairwise ltDay) : GoodWrite (cid, k, payloadOf s) :=
  ⟨by simpa [payloadOf] using hlen, payload_fst_nodup s hpw⟩

/-- Updating a prewarm state with bounded new writes keeps both the cache
bound and the write log bound. -/
theorem step_update_good (st : PrewarmState) (tnow : Int)
    (ws : List (String × Nat × List RawPoint))
    (hc : CacheInv st.cache) (hw : ∀ w ∈ st.writes, GoodWrite w)
    (hws : ∀ w ∈ ws, GoodWrite w) :
    CacheInv (applyWrites st.cache ws tnow) ∧
    ∀ w ∈ st.writes ++ ws, GoodWrite w := by
  refine ⟨applyWrites_inv _ _ _ hc hws, ?_⟩
  intro w hwmem
  rcases List.mem_append.mp hwmem with h | h
  · exact hw w h
  · exact hws w h

/-- One prewarm loop body preserves the cache bound, and keeps every recorded
write bounded. -/
theorem prewarmStep_good (env : Env) (st : PrewarmState) (sym : String)
    (hc : CacheInv st.cache) (hw : ∀ w ∈ st.writes, GoodWrite w) :
    CacheInv (prewarmStep env st sym).cache ∧
    ∀ w ∈ (prewarmStep env st sym).writes, GoodWrite w := by
  unfold prewarmStep
  dsimp only
  cases hraw : usable (cache_get_raw st.cache ((CG_IDS.lookup sym).getD "") 365) with
  | some raw365 =>
    dsimp only
    have hpw : (dedupe_by_day env.tz raw365).Pairwise ltDay := dedupe_pairwise _ _
    have h180 := derive_good (dedupe_by_day env.tz raw365) 180 (by omega) hpw
    have h090 := derive_good (dedupe_by_day env.tz raw365) 90 (by omega) hpw
    apply step_update_good st env.now _ hc hw
    intro w hwmem
    simp only [List.mem_cons, List.not_mem_nil, or_false] at hwmem
    rcases hwmem with rfl | rfl
    · exact payload_write_good _ _ _ h180.1 h180.2
    · exact payload_write_good _ _ _ h090.1 h090.2
  | none =>
    dsimp only
    have hg := fetch_good { env with cache := st.cache } sym 365 hc (by omega)
    obtain ⟨hglen, hgpw, hgw⟩ := hg
    by_cases hser :
        (fetch_daily_prices_with_reason { env with cache := st.cache } sym 365).series.isEmpty
          = true
    · simp only [if_pos hser]
      exact step_update_good st env.now _ hc hw hgw
    · simp only [if_neg hser]
      have h180 := derive_good
        (fetch_daily_prices_with_reason { env with cache := st.cache } sym 365).series 180
        (by omega) hgpw
      have h090 := derive_good
        (fetch_daily_prices_with_reason { env with cache := st.cache } sym 365).series 90
        (by omega) hgpw
      have hall : ∀ w ∈
          (fetch_daily_prices_with_reason { env with cache := st.cache } sym 365).writes ++
          [((CG_IDS.lookup sym).getD "", 365, payloadOf
              (fetch_daily_prices_with_reason { env with cache := st.cache } sym 365).series),
           ((CG_IDS.lookup sym).getD "", 180, payloadOf
              (if 180 < (fetch_daily_prices_with_reason { env with cache := st.cache }
                  sym 365).series.length then
                pyLastN (fetch_daily_prices_with_reason { env with cache := st.cache }
                  sym 365).series 180
              else (fetch_daily_prices_with_reason { env with cache := st.cache }
                  sym 365).series)),
           ((CG_IDS.lookup sym).getD "", 90, payloadOf
              (if 90 < (fetch_daily_prices_with_reason { env with cache := st.cache }
                  sym 365).series.length then
                pyLastN (fetch_daily_prices_with_reason { env with cache := st.cache }
                  sym 365).series 90
              else (fetch_daily_prices_with_reason { env with cache := st.cache }
                  sym 365).series))], GoodWrite w := by
        intro w hwmem
        rcases List.mem_append.mp hwmem with h | h
        · exact hgw w h
        · simp only [List.mem_cons, List.not_mem_nil, or_false] at h
          rcases h with rfl | rfl | rfl
          · exact payload_write_good _ _ _ hglen hgpw
          · exact payload_write_good _ _ _ h180.1 h180.2
          · exact payload_write_good _ _ _ h090.1 h090.2
      refine ⟨applyWrites_inv _ _ _ hc hall, ?_⟩
      intro w hwmem
      rw [List.append_assoc] at hwmem
      rcases List.mem_append.mp hwmem with h | h
      · exact hw w h
      · exact hall w h

/-- The whole prewarm loop keeps every recorded cache write bounded. -/
theorem prewarmGo_good (env : Env) :
    ∀ (syms : List String) (st : PrewarmState),
      CacheInv st.cache → (∀ w ∈ st.writes, GoodWrite w) →
      ∀ w ∈ (prewarmGo env syms st).writes, GoodWrite w := by
  intro syms
  induction syms with
  | nil => intro st _ h2; exact h2
  | cons sym rest ih =>
    intro st h1 h2
    unfold prewarmGo
    by_cases hstop : st.stopped = true
    · rw [if_pos hstop]; exact h2
    · rw [if_neg hstop]
      dsimp only
      obtain ⟨h1', h2'⟩ := prewarmStep_good env st sym h1 h2
      by_cases hcon : 5 ≤ (prewarmStep env st sym).consec
      · rw [if_pos hcon]
        exact h2'
      · rw [if_neg hcon]
        exact ih _ h1' h2'

/-- C10: every cache write performed by the engine — any strategy of the fetch
cascade, and every write of a prewarm batch (fresh 365-day stores and locally
derived 180/90-day stores) — stores at most as many points as its key's window
length, one per calendar day (pairwise-distinct day timestamps); consequently,
under such a cache, the series a `days`-day request returns (in particular a
deduped exact cache hit, which is not re-sliced) never has more than `days`
points. -/
theorem engine_cache_write_invariant (env : Env) (symbol : String) (days : Nat)
    (hinv : CacheInv env.cache) (hd : 1 ≤ days) :
    (∀ w ∈ (fetch_daily_prices_with_reason env symbol days).writes, GoodWrite w) ∧
    (∀ syms : List String, ∀ w ∈ (action_prewarm_cache_smart env syms).writes, GoodWrite w) ∧
    (fetch_daily_prices_with_reason env symbol days).series.length ≤ days := by
  obtain ⟨h1, _, h3⟩ := fetch_good env symbol days hinv hd
  refine ⟨h3, ?_, h1⟩
  intro syms
  apply prewarmGo_good env syms (initPrewarm env.cache) hinv
  intro w hwmem
  simp [initPrewarm] at hwmem

/-- Witness for `engine_cache_write_invariant` on the empty-cache environment
`wEnv`, symbol `BTC`, a 30-day window. -/
theorem engine_cache_write_invariant_witness :
    (CacheInv wEnv.cache ∧ 1 ≤ 30) ∧
    ((∀ w ∈ (fetch_daily_prices_with_reason wEnv "BTC" 30).writes, GoodWrite w) ∧
     (∀ syms : List String, ∀ w ∈ (action_prewarm_cache_smart wEnv syms).writes, GoodWrite w) ∧
     (fetch_daily_prices_with_reason wEnv "BTC" 30).series.length ≤ 30) :=
  have hcinv : CacheInv wEnv.cache := by
    intro cid d e h
    simp [wEnv] at h
  ⟨⟨hcinv, by decide⟩, engine_cache_write_invariant wEnv "BTC" 30 hcinv (by decide)⟩

/-- A plain ticker symbol: no space and no colon among its characters. -/
def plainSym (s : String) : Bool := s.data.all (fun c => !(c == ' ') && !(c == ':'))

/-- A string with no colon among its characters. -/
def noColon (s : String) : Bool := s.data.all (fun c => !(c == ':'))

/-- A plain symbol contains no space. -/
theorem plainSym_space (s : String) (h : plainSym s = true) : ∀ c ∈ s.data, c ≠ ' ' := by
  intro c hc
  have := List.all_eq_true.mp h c hc
  rw [Bool.and_eq_true, Bool.not_eq_true', Bool.not_eq_true'] at this
  exact beq_eq_false_iff_ne.mp this.1

/-- A plain symbol contains no colon. -/
theorem plainSym_colon (s : String) (h : plainSym s = true) : ∀ c ∈ s.data, c ≠ ':' := by
  intro c hc
  have := List.all_eq_true.mp h c hc
  rw [Bool.and_eq_true, Bool.not_eq_true', Bool.not_eq_true'] at this
  exact beq_eq_false_iff_ne.mp this.2

/-- Reading `noColon` off as a proposition. -/
theorem noColon_spec (s : String) (h : noColon s = true) : ∀ c ∈ s.data, c ≠ ':' := by
  intro c hc
  have := List.all_eq_true.mp h c hc
  rw [Bool.not_eq_true'] at this
  exact beq_eq_false_iff_ne.mp this

/-- Character list of a skipped-entry string `sym ++ ": " ++ reason`. -/
theorem skip_entry_data (s r : String) :
    (s ++ ": " ++ r).data = s.data ++ ':' :: ' ' :: r.data := by
  rw [String.data_append, String.data_append, List.append_assoc]
  rfl

/-- Two colon-free prefixes followed by a colon agree when the full lists
agree: the first colon splits the string unambiguously. -/
theorem colon_split_inj : ∀ (a b u v : List Char),
    (∀ c ∈ a, c ≠ ':') → (∀ c ∈ b, c ≠ ':') →
    a ++ ':' :: u = b ++ ':' :: v → a = b := by
  intro a
  induction a with
  | nil =>
    intro b u v _ hb h
    cases b with
    | nil => rfl
    | cons c b' =>
      rw [List.nil_append, List.cons_append] at h
      have hc := (List.cons.inj h).1
      exact absurd hc.symm (hb c (by simp))
  | cons c a' ih =>
    intro b u v ha hb h
    cases b with
    | nil =>
      rw [List.cons_append, List.nil_append] at h
      have hc := (List.cons.inj h).1
      exact absurd hc (ha c (by simp))
    | cons d b' =>
      rw [List.cons_append, List.cons_append] at h
      obtain ⟨h1, h2⟩ := List.cons.inj h
      subst h1
      rw [ih b' u v (fun x hx => ha x (by simp [hx])) (fun x hx => hb x (by simp [hx])) h2]

/-- Individually-reported skip entries with colon-free symbols determine the
symbol. -/
theorem skip_entry_inj (s s' r r' : String)
    (hs : ∀ c ∈ s.data, c ≠ ':') (hs' : ∀ c ∈ s'.data, c ≠ ':')
    (h : s ++ ": " ++ r = s' ++ ": " ++ r') : s = s' := by
  have hd := congrArg String.data h
  rw [skip_entry_data, skip_entry_data] at hd
  exact String.ext (colon_split_inj s.data s'.data (' ' :: r.data) (' ' :: r'.data) hs hs' hd)

/-- The stop notice contains no colon. -/
theorem notice_no_colon : ∀ c ∈ stopNotice.data, c ≠ ':' := by decide

/-- No individually-reported skip entry is the stop notice. -/
theorem skip_entry_ne_notice (s r : String) : s ++ ": " ++ r ≠ stopNotice := by
  intro h
  have hd := congrArg String.data h
  rw [skip_entry_data] at hd
  have hmem : (':' : Char) ∈ stopNotice.data := by
    rw [← hd]
    simp
  exact absurd rfl (notice_no_colon ':' hmem)

/-- A space-free string is not a `sym ++ " (cache)"` report. -/
theorem ne_append_cache (s s' : String) (hs : ∀ c ∈ s.data, c ≠ ' ') :
    s ≠ s' ++ " (cache)" := by
  intro h
  have hd := congrArg String.data h
  have hsp : (' ' : Char) ∈ (s' ++ " (cache)").data := by
    rw [String.data_append]
    simp
  rw [← hd] at hsp
  exact absurd rfl (hs ' ' hsp)

/-- A stopped prewarm state is final: the loop body never runs again. -/
theorem prewarmGo_fix (env : Env) (syms : List String) (st : PrewarmState)
    (h : st.stopped = true) : prewarmGo env syms st = st := by
  cases syms with
  | nil => rfl
  | cons sym rest =>
    unfold prewarmGo
    rw [if_pos h]

/-- One unfolding of the prewarm loop. -/
theorem prewarmGo_cons (env : Env) (sym : String) (rest : List String)
    (st : PrewarmState) :
    prewarmGo env (sym :: rest) st =
      if st.stopped = true then st
      else
        (let st' := prewarmStep env st sym
         if 5 ≤ st'.consec then
           { st' with skipped := st'.skipped ++ [stopNotice], stopped := true }
         else prewarmGo env rest st') := rfl

theorem prewarmStep_shape (env : Env) (st : PrewarmState) (sym : String) :
    (prewarmStep env st sym).processed = st.processed ++ [sym] ∧
    (prewarmStep env st sym).stopped = st.stopped ∧
    ((prewarmStep env st sym).ok = st.ok ∨
     (prewarmStep env st sym).ok = st.ok ++ [sym ++ " (cache)"] ∨
     (prewarmStep env st sym).ok = st.ok ++ [sym]) ∧
    ((prewarmStep env st sym).skipped = st.skipped ∨
     ∃ r, (prewarmStep env st sym).skipped = st.skipped ++ [sym ++ ": " ++ r]) := by
  unfold prewarmStep
  dsimp only
  cases usable (cache_get_raw st.cache ((CG_IDS.lookup sym).getD "") 365) with
  | some raw365 =>
    refine ⟨?_, ?_, ?_, ?_⟩
    case _ => rfl
    case _ => rfl
    case _ => exact Or.inr (Or.inl rfl)
    case _ => exact Or.inl rfl
  | none =>
    by_cases hser :
        (fetch_daily_prices_with_reason { env with cache := st.cache } sym 365).series.isEmpty
          = true
    case pos =>
      refine ⟨?_, ?_, ?_, ?_⟩
      case _ => rw [if_pos hser]
      case _ => rw [if_pos hser]
      case _ => exact Or.inl (by rw [if_pos hser])
      case _ => exact Or.inr ⟨_, by rw [if_pos hser]⟩
    case neg =>
      refine ⟨?_, ?_, ?_, ?_⟩
      case _ => rw [if_neg hser]
      case _ => rw [if_neg hser]
      case _ => exact Or.inr (Or.inr (by rw [if_neg hser]))
      case _ => exact Or.inl (by rw [if_neg hser])

/-- The prewarm loop decomposes along list append; in particular everything
after an early stop is ignored. -/
theorem prewarmGo_append (env : Env) :
    ∀ (xs ys : List String) (st : PrewarmState),
      prewarmGo env (xs ++ ys) st = prewarmGo env ys (prewarmGo env xs st) := by
  intro xs
  induction xs with
  | nil => intro ys st; rfl
  | cons x xs' ih =>
    intro ys st
    rw [List.cons_append, prewarmGo_cons, prewarmGo_cons]
    by_cases hstop : st.stopped = true
    · rw [if_pos hstop, if_pos hstop, prewarmGo_fix env ys st hstop]
    · rw [if_neg hstop, if_neg hstop]
      dsimp only
      by_cases hcon : 5 ≤ (prewarmStep env st x).consec
      · rw [if_pos hcon, if_pos hcon]
        symm
        apply prewarmGo_fix
        rfl
      · rw [if_neg hcon, if_neg hcon]
        exact ih ys (prewarmStep env st x)

/-- When the loop stops early, the stop notice is the last skipped entry. -/
theorem prewarmGo_notice (env : Env) :
    ∀ (syms : List String) (st : PrewarmState), st.stopped = false →
      (prewarmGo env syms st).stopped = true →
      ((prewarmGo env syms st).skipped).getLast? = some stopNotice := by
  intro syms
  induction syms with
  | nil =>
    intro st h1 h2
    have hc : st.stopped = true := h2
    rw [h1] at hc
    exact absurd hc Bool.false_ne_true
  | cons sym rest ih =>
    intro st h1 h2
    rw [prewarmGo_cons] at h2 ⊢
    rw [if_neg (by rw [h1]; exact Bool.false_ne_true)] at h2 ⊢
    dsimp only at h2 ⊢
    by_cases hcon : 5 ≤ (prewarmStep env st sym).consec
    · rw [if_pos hcon]
      exact List.getLast?_concat _
    · rw [if_neg hcon] at h2 ⊢
      have hstop' : (prewarmStep env st sym).stopped = false := by
        rw [(prewarmStep_shape env st sym).2.1, h1]
      exact ih (prewarmStep env st sym) hstop' h2

/-- Provenance of the prewarm report: processed symbols are drawn from the
input batch (and processing is monotone), every `ok` entry is `s` or
`s ++ " (cache)"` for a processed symbol `s`, and every skipped entry is the
stop notice or `s ++ ": " ++ r` for a processed symbol `s`. -/
theorem prewarmGo_shape (env : Env) :
    ∀ (syms : List String) (st : PrewarmState),
      (∀ s ∈ st.processed, s ∈ (prewarmGo env syms st).processed) ∧
      (∀ s ∈ (prewarmGo env syms st).processed, s ∈ st.processed ∨ s ∈ syms) ∧
      (∀ e ∈ (prewarmGo env syms st).ok, e ∈ st.ok ∨
        ∃ s, s ∈ (prewarmGo env syms st).processed ∧ (e = s ∨ e = s ++ " (cache)")) ∧
      (∀ e ∈ (prewarmGo env syms st).skipped, e ∈ st.skipped ∨ e = stopNotice ∨
        ∃ s, s ∈ (prewarmGo env syms st).processed ∧ ∃ r, e = s ++ ": " ++ r) := by
  intro syms
  induction syms with
  | nil =>
    intro st
    exact ⟨fun s h => h, fun s h => Or.inl h, fun e h => Or.inl h, fun e h => Or.inl h⟩
  | cons sym rest ih =>
    intro st
    rw [prewarmGo_cons]
    by_cases hstop : st.stopped = true
    · rw [if_pos hstop]
      exact ⟨fun s h => h, fun s h => Or.inl h, fun e h => Or.inl h, fun e h => Or.inl h⟩
    · rw [if_neg hstop]
      dsimp only
      obtain ⟨hproc, _, hok, hskip⟩ := prewarmStep_shape env st sym
      by_cases hcon : 5 ≤ (prewarmStep env st sym).consec
      · rw [if_pos hcon]
        refine ⟨?_, ?_, ?_, ?_⟩
        · intro s hs
          show s ∈ (prewarmStep env st sym).processed
          rw [hproc]
          exact List.mem_append_left _ hs
        · intro s hs
          have hs' : s ∈ (prewarmStep env st sym).processed := hs
          rw [hproc] at hs'
          rcases List.mem_append.mp hs' with h | h
          · exact Or.inl h
          · rw [List.mem_singleton] at h
            exact Or.inr (by rw [h]; exact List.mem_cons_self _ _)
        · intro e he
          have he' : e ∈ (prewarmStep env st sym).ok := he
          have hsymp : sym ∈ (prewarmStep env st sym).processed := by
            rw [hproc]; exact List.mem_append_right _ (List.mem_singleton.mpr rfl)
          rcases hok with h | h | h
          · rw [h] at he'; exact Or.inl he'
          · rw [h] at he'
            rcases List.mem_append.mp he' with h2 | h2
            · exact Or.inl h2
            · rw [List.mem_singleton] at h2
              exact Or.inr ⟨sym, hsymp, Or.inr h2⟩
          · rw [h] at he'
            rcases List.mem_append.mp he' with h2 | h2
            · exact Or.inl h2
            · rw [List.mem_singleton] at h2
              exact Or.inr ⟨sym, hsymp, Or.inl h2⟩
        · intro e he
          have he' : e ∈ (prewarmStep env st sym).skipped ++ [stopNotice] := he
          have hsymp : sym ∈ (prewarmStep env st sym).processed := by
            rw [hproc]; exact List.mem_append_right _ (List.mem_singleton.mpr rfl)
          rcases List.mem_append.mp he' with h2 | h2
          · rcases hskip with h | ⟨r, h⟩
            · rw [h] at h2; exact Or.inl h2
            · rw [h] at h2
              rcases List.mem_append.mp h2 with h3 | h3
              · exact Or.inl h3
              · rw [List.mem_singleton] at h3
                exact Or.inr (Or.inr ⟨sym, hsymp, r, h3⟩)
          · rw [List.mem_singleton] at h2
            exact Or.inr (Or.inl h2)
      · rw [if_neg hcon]
        obtain ⟨ih0, ih1, ih2, ih3⟩ := ih (prewarmStep env st sym)
        have hstep_mem : ∀ s ∈ st.processed, s ∈ (prewarmStep env st sym).processed := by
          intro s hs
          rw [hproc]
          exact List.mem_append_left _ hs
        have hsymp : sym ∈ (prewarmStep env st sym).processed := by
          rw [hproc]; exact List.mem_append_right _ (List.mem_singleton.mpr rfl)
        refine ⟨?_, ?_, ?_, ?_⟩
        · intro s hs
          exact ih0 s (hstep_mem s hs)
        · intro s hs
          rcases ih1 s hs with h | h
          · rw [hproc] at h
            rcases List.mem_append.mp h with h2 | h2
            · exact Or.inl h2
            · rw [List.mem_singleton] at h2
              exact Or.inr (by rw [h2]; exact List.mem_cons_self _ _)
          · exact Or.inr (List.mem_cons_of_mem _ h)
        · intro e he
          rcases ih2 e he with h | h
          · rcases hok with h2 | h2 | h2
            · rw [h2] at h; exact Or.inl h
            · rw [h2] at h
              rcases List.mem_append.mp h with h3 | h3
              · exact Or.inl h3
              · rw [List.mem_singleton] at h3
                exact Or.inr ⟨sym, ih0 sym hsymp, Or.inr h3⟩
            · rw [h2] at h
              rcases List.mem_append.mp h with h3 | h3
              · exact Or.inl h3
              · rw [List.mem_singleton] at h3
                exact Or.inr ⟨sym, ih0 sym hsymp, Or.inl h3⟩
          · exact Or.inr h
        · intro e he
          rcases ih3 e he with h | h | h
          · rcases hskip with h2 | ⟨r, h2⟩
            · rw [h2] at h; exact Or.inl h
            · rw [h2] at h
              rcases List.mem_append.mp h with h3 | h3
              · exact Or.inl h3
              · rw [List.mem_singleton] at h3
                exact Or.inr (Or.inr ⟨sym, ih0 sym hsymp, r, h3⟩)
          · exact Or.inr (Or.inl h)
          · exact Or.inr (Or.inr h)

/-- C9: once the prewarm batch has stopped early — the break that fires when
five consecutive symbols have failed with a rate-limit reason — the batch is
unchanged by any further symbols: they are never processed (no cache read,
derivation, fetch or write happens for them), they appear neither in the
succeeded list nor among the individually-reported skip entries, and the last
skipped entry is the stop notice. -/
theorem prewarm_early_stop (env : Env) (pre rest : List String)
    (hstop : (action_prewarm_cache_smart env pre).stopped = true)
    (hdisj : ∀ s ∈ rest, s ∉ pre)
    (hplain : ∀ s ∈ rest, plainSym s = true)
    (hpre : ∀ s ∈ pre, noColon s = true) :
    action_prewarm_cache_smart env (pre ++ rest) = action_prewarm_cache_smart env pre ∧
    (∀ s ∈ rest,
      s ∉ (action_prewarm_cache_smart env (pre ++ rest)).processed ∧
      s ∉ (action_prewarm_cache_smart env (pre ++ rest)).ok ∧
      ∀ r, (s ++ ": " ++ r) ∉ (action_prewarm_cache_smart env (pre ++ rest)).skipped) ∧
    ((action_prewarm_cache_smart env (pre ++ rest)).skipped).getLast? = some stopNotice := by
  have heq : action_prewarm_cache_smart env (pre ++ rest) =
      action_prewarm_cache_smart env pre := by
    unfold action_prewarm_cache_smart at hstop ⊢
    rw [prewarmGo_append, prewarmGo_fix env rest _ hstop]
  obtain ⟨_, h1, h2, h3⟩ := prewarmGo_shape env pre (initPrewarm env.cache)
  refine ⟨heq, ?_, ?_⟩
  · intro s hs
    have hsproc : s ∉ (action_prewarm_cache_smart env pre).processed := by
      intro hmem
      rcases h1 s hmem with h | h
      · simp [initPrewarm] at h
      · exact hdisj s hs h
    refine ⟨by rw [heq]; exact hsproc, ?_, ?_⟩
    · rw [heq]
      intro hmem
      rcases h2 s hmem with h | ⟨s', hs', hcase⟩
      · simp [initPrewarm] at h
      · have hs'pre : s' ∈ pre := by
          rcases h1 s' hs' with hh | hh
          · simp [initPrewarm] at hh
          · exact hh
        rcases hcase with heq2 | hcache
        · exact hdisj s hs (by rw [heq2]; exact hs'pre)
        · exact ne_append_cache s s' (plainSym_space s (hplain s hs)) hcache
    · intro r hmem
      rw [heq] at hmem
      rcases h3 _ hmem with h | h | ⟨s', hs', r', hentry⟩
      · simp [initPrewarm] at h
      · exact skip_entry_ne_notice s r h
      · have hs'pre : s' ∈ pre := by
          rcases h1 s' hs' with hh | hh
          · simp [initPrewarm] at hh
          · exact hh
        have hss' : s = s' := skip_entry_inj s s' r r'
          (plainSym_colon s (hplain s hs)) (noColon_spec s' (hpre s' hs'pre)) hentry
        rw [hss'] at hs
        exact hdisj s' hs hs'pre
  · rw [heq]
    exact prewarmGo_notice env pre (initPrewarm env.cache) rfl hstop

/-- Environment whose every upstream strategy raises a 429 rate-limit error,
over an empty cache. -/
def rlEnv : Env where
  tz := 0
  today := 20000
  now := 0
  cache := fun _ _ => none
  daily := fun _ _ => .error "429 Too Many Requests"
  std := fun _ _ => .error "429 Too Many Requests"
  maxChart := fun _ => .error "429 Too Many Requests"
  ohlc := fun _ _ => .error "429 Too Many Requests"
  range := fun _ _ => .error "429 Too Many Requests"

/-- Witness for `prewarm_early_stop`: five straight rate-limited symbols stop
the batch; the sixth symbol is untouched. -/
theorem prewarm_early_stop_witness :
    ((action_prewarm_cache_smart rlEnv ["BTC", "ETH", "SOL", "ADA", "DOT"]).stopped = true ∧
     (∀ s ∈ ["XRP"], s ∉ ["BTC", "ETH", "SOL", "ADA", "DOT"]) ∧
     (∀ s ∈ ["XRP"], plainSym s = true) ∧
     (∀ s ∈ ["BTC", "ETH", "SOL", "ADA", "DOT"], noColon s = true)) ∧
    (action_prewarm_cache_smart rlEnv (["BTC", "ETH", "SOL", "ADA", "DOT"] ++ ["XRP"]) =
       action_prewarm_cache_smart rlEnv ["BTC", "ETH", "SOL", "ADA", "DOT"] ∧
     (∀ s ∈ ["XRP"],
       s ∉ (action_prewarm_cache_smart rlEnv
              (["BTC", "ETH", "SOL", "ADA", "DOT"] ++ ["XRP"])).processed ∧
       s ∉ (action_prewarm_cache_smart rlEnv
              (["BTC", "ETH", "SOL", "ADA", "DOT"] ++ ["XRP"])).ok ∧
       ∀ r, (s ++ ": " ++ r) ∉ (action_prewarm_cache_smart rlEnv
              (["BTC", "ETH", "SOL", "ADA", "DOT"] ++ ["XRP"])).skipped) ∧
     ((action_prewarm_cache_smart rlEnv
         (["BTC", "ETH", "SOL", "ADA", "DOT"] ++ ["XRP"])).skipped).getLast? =
       some stopNotice) :=
  ⟨⟨by decide, by decide, by decide, by decide⟩,
   prewarm_early_stop rlEnv ["BTC", "ETH", "SOL", "ADA", "DOT"] ["XRP"]
     (by decide) (by decide) (by decide) (by decide)⟩
